import Mathlib

/-
Verification of the graph-analytics and layout-preparation pipeline of the
spotify-network frontend (NetworkGraph component).

The TypeScript source is shallowly embedded:
  - node ids are Lean String values; JS template-literal keys such as
    s + "->" + t are String concatenations;
  - JS Set objects (insertion-ordered, duplicate-free) are Lean lists
    manipulated with append-if-absent and erase;
  - JS Map objects whose iteration order is never consulted are modelled as
    functions into Option, updated pointwise; Maps whose iteration order is
    consulted (the clique map, the cluster-group map) are association lists
    kept in insertion order;
  - the default JS array sort for two strings is lexicographic comparison of
    code units; it is modelled by lexicographic comparison of the character
    data (identical for the ASCII ids this component works with);
  - Math.cos, Math.sin, Math.sqrt, Math.atan2, Math.PI and Math.random are
    external library calls; they are passed as explicit parameters over the
    rational numbers, with one Math.random value consumed per call in call
    order;
  - the unbounded recursion of the Bron-Kerbosch search is given an explicit
    fuel parameter (the concrete entry point passes enough fuel for every
    self-loop-free graph, the depth of the search being bounded by the
    number of distinct node ids).
-/

namespace SpotifyNetwork

/-! String comparison, as used by the default JS array sort on two elements. -/

/-- Lexicographic strict order on character lists, mirroring the code-unit
comparison JS applies to strings. -/
def lexLt : List Char → List Char → Bool
  | [], [] => false
  | [], _ :: _ => true
  | _ :: _, [] => false
  | a :: as, b :: bs => if a < b then true else if b < a then false else lexLt as bs

/-- Strict string comparison used to model the default sort of a two-element
JS array of ids. -/
def strLt (s t : String) : Bool := lexLt s.data t.data

theorem lexLt_asymm : ∀ x y : List Char, lexLt x y = true → lexLt y x = false := by
  intro x
  induction x with
  | nil => intro y h; cases y <;> simp_all [lexLt]
  | cons a as ih =>
    intro y h
    cases y with
    | nil => simp_all [lexLt]
    | cons b bs =>
      simp only [lexLt] at h ⊢
      split at h
      · next hab => simp [lt_asymm hab, hab]
      · split at h
        · exact absurd h (by simp)
        · next h1 h2 => simp [h2, h1, ih bs h]

theorem lexLt_total_eq : ∀ x y : List Char, lexLt x y = false → lexLt y x = false → x = y := by
  intro x
  induction x with
  | nil => intro y h1 h2; cases y <;> simp_all [lexLt]
  | cons a as ih =>
    intro y h1 h2
    cases y with
    | nil => simp_all [lexLt]
    | cons b bs =>
      simp only [lexLt] at h1 h2
      split at h1
      · exact absurd h1 (by simp)
      · split at h1
        · next hab hba => rw [if_pos hba] at h2; exact absurd h2 (by simp)
        · next hab hba =>
          have : ¬ b < a := hba
          simp [hab, this] at h2
          have := le_antisymm (not_lt.mp hab) (not_lt.mp hba)
          rw [this, ih bs h1 h2]

theorem strLt_asymm (s t : String) (h : strLt s t = true) : strLt t s = false :=
  lexLt_asymm _ _ h

theorem strLt_total_eq (s t : String) (h1 : strLt s t = false) (h2 : strLt t s = false) :
    s = t := by
  have h := lexLt_total_eq s.data t.data h1 h2
  cases s; cases t; exact congrArg String.mk h

/-! Data model. -/

/-- Identifier of the designated root account (COLIN_USER_ID in the source). -/
def COLIN_USER_ID : String := "pfy59smofvvr5brx5cjt5sy2l"

/-- Identifier of the synthetic condensed placeholder node. -/
def CONDENSED_ID : String := "CONDENSED_LEAVES"

/-- Graph node as consumed by the pipeline: id, display name and the two
relationship counters (GraphNode in types/network.ts, restricted to the
fields the analytics code reads or writes). -/
structure GNode where
  id : String
  username : String
  follower_count : Nat
  following_count : Nat
deriving DecidableEq, Repr

/-- Raw directed edge, with the endpoint ids already resolved to strings
(the source resolves link.source / link.target to ids at each use). -/
structure Link where
  source : String
  target : String
deriving DecidableEq, Repr

/-- Graph snapshot handed around between the pipeline stages. -/
structure GraphData where
  nodes : List GNode
  links : List Link
deriving DecidableEq, Repr

/-- Normalized link produced by the edge-normalization pass: endpoint ids
plus the bidirectional (mutual) flag. -/
structure NLink where
  source : String
  target : String
  bidirectional : Bool
deriving DecidableEq, Repr

/-- Pointwise update of a map modelled as a function, the semantics of
JS Map.set for later lookups. -/
def setKey {α β : Type} [DecidableEq α] (m : α → β) (k : α) (v : β) : α → β :=
  fun x => if x = k then v else m x

/-! Edge normalizer (the link normalization/dedup pass of the render effect,
also inlined at the start of processNetworkData). -/

/-- Directed-edge key, the template literal source + "->" + target. -/
def edgeKey (s t : String) : String := s ++ "->" ++ t

/-- Unordered-pair key: the two ids sorted by the default JS array sort and
joined with "<->". -/
def pairKey (s t : String) : String :=
  if strLt t s then t ++ "<->" ++ s else s ++ "<->" ++ t

theorem pairKey_comm (a b : String) : pairKey a b = pairKey b a := by
  unfold pairKey
  rcases h1 : strLt b a
  · rcases h2 : strLt a b
    · rw [strLt_total_eq a b h2 h1]
    · simp
  · rw [strLt_asymm b a h1]; simp

/-- First pass over the raw links: accumulate the set of directed-edge keys
seen so far and record the unordered pair as bidirectional whenever the
reverse key is already present.  The key of the current link is inserted
before the reverse lookup, exactly as in the source (edgeMap.set precedes
edgeMap.has). -/
def buildBidirAux : List Link → List String → List String → List String
  | [], _, bidir => bidir
  | l :: rest, keys, bidir =>
      let keys1 := edgeKey l.source l.target :: keys
      let bidir1 :=
        if edgeKey l.target l.source ∈ keys1 then pairKey l.source l.target :: bidir
        else bidir
      buildBidirAux rest keys1 bidir1

/-- Set of pair keys marked bidirectional by the first pass. -/
def buildBidir (links : List Link) : List String := buildBidirAux links [] []

/-- Second pass: emit one normalized link per raw link unless the link's
pair key is bidirectional and already processed; a bidirectional emission
marks its pair key processed. -/
def emitAux (bidir : List String) : List Link → List String → List NLink
  | [], _ => []
  | l :: rest, processed =>
      let pk := pairKey l.source l.target
      if pk ∈ bidir ∧ pk ∈ processed then emitAux bidir rest processed
      else
        let isB : Bool := decide (pk ∈ bidir)
        ⟨l.source, l.target, isB⟩ ::
          emitAux bidir rest (if isB then pk :: processed else processed)

/-- Edge normalization step of the render effect: classify pairs as
bidirectional, then deduplicate bidirectional pairs while tagging each
emitted link with its mutual flag. -/
def normalizeLinks (links : List Link) : List NLink :=
  emitAux (buildBidir links) links []

/-- Two links represent the same unordered pair of node ids. -/
def sameUnordPair (l1 l2 : NLink) : Prop :=
  (l1.source = l2.source ∧ l1.target = l2.target) ∨
  (l1.source = l2.target ∧ l1.target = l2.source)

instance (l1 l2 : NLink) : Decidable (sameUnordPair l1 l2) := by
  unfold sameUnordPair; infer_instance

/-! Leaf condenser (processNetworkData). -/

/-- Initial connection-count map: one empty neighbor set per node id
(ids absent from the node list have no entry). -/
def initCounts (nodes : List GNode) : String → Option (List String) :=
  nodes.foldl (fun m n => setKey m n.id (some [])) (fun _ => none)

/-- Model of connectionCounts.get(a)?.add(b): append b to the neighbor set
of a when a has an entry and b is not yet present; no-op otherwise. -/
def addNbr (counts : String → Option (List String)) (a b : String) :
    String → Option (List String) :=
  match counts a with
  | none => counts
  | some s => setKey counts a (some (if b ∈ s then s else s ++ [b]))

/-- One step of the unique-connection counting pass: skip a bidirectional
pair that was already processed, otherwise record the neighbors on both
endpoints and mark a bidirectional pair processed. -/
def connStep (bidir : List String) :
    ((String → Option (List String)) × List String) → Link →
    ((String → Option (List String)) × List String)
  | (counts, processed), l =>
      let pk := pairKey l.source l.target
      if pk ∈ bidir ∧ pk ∈ processed then (counts, processed)
      else
        let counts1 := addNbr counts l.source l.target
        let counts2 := addNbr counts1 l.target l.source
        (counts2, if pk ∈ bidir then pk :: processed else processed)

/-- Unique-neighbor sets of every node, computed from the raw links of the
input graph. -/
def connCounts (nodes : List GNode) (links : List Link) :
    String → Option (List String) :=
  (links.foldl (connStep (buildBidir links)) (initCounts nodes, [])).1

/-- Unique-neighbor count of a node id, the JS expression
connectionCounts.get(id)?.size || 0. -/
def connCountVal (g : GraphData) (nid : String) : Nat :=
  ((connCounts g.nodes g.links nid).getD []).length

/-- Leaf nodes: unique-neighbor count at most 1 and not the root. -/
def leafNodesOf (g : GraphData) : List GNode :=
  g.nodes.filter (fun n => decide (n.id ≠ COLIN_USER_ID ∧ connCountVal g n.id ≤ 1))

/-- Condensed placeholder node whose label encodes the leaf count. -/
def condensedNode (k : Nat) : GNode :=
  ⟨CONDENSED_ID, toString k ++ " leaf connections", 0, 0⟩

/-- Leaf condenser: with hiding disabled or no leaves present the input is
returned unchanged; otherwise leaves are dropped, the placeholder appended,
links touching leaves removed, and one root-to-placeholder link appended. -/
def processNetworkData (g : GraphData) (hideLeaves : Bool) : GraphData :=
  if !hideLeaves then g
  else
    let leaves := leafNodesOf g
    if leaves.length = 0 then g
    else
      let filteredNodes :=
        g.nodes.filter (fun n => decide (n.id = COLIN_USER_ID ∨ 1 < connCountVal g n.id))
      let newNodes := filteredNodes ++ [condensedNode leaves.length]
      let filteredLinks :=
        g.links.filter (fun l =>
          decide (¬ ∃ lf ∈ leaves, lf.id = l.source ∨ lf.id = l.target))
      ⟨newNodes, filteredLinks ++ [⟨COLIN_USER_ID, CONDENSED_ID⟩]⟩

/-! Clique finder (findAllCliques): Bron-Kerbosch search with pivoting. -/

/-- Deduplication with JS Set semantics: first occurrence kept, insertion
order preserved. -/
def jsDedup (l : List String) : List String :=
  l.foldl (fun acc x => if x ∈ acc then acc else acc ++ [x]) []

/-- Membership of b in the adjacency set of a. The set exists only for ids
occurring in the node list, and for such an id it collects the other
endpoint of every link mentioning the id in either direction. -/
def memAdj (nodes : List String) (links : List Link) (a b : String) : Bool :=
  decide (a ∈ nodes) &&
    links.any (fun l => (l.source == a && l.target == b) || (l.source == b && l.target == a))

/-- Inner loop of the search: iterate over the snapshot of the candidate
set taken when the pivot was chosen, skip candidates adjacent to the pivot,
branch on the rest, and after each branch move the candidate from the live
candidate set to the live excluded set. -/
def bkGo (nodes : List String) (links : List Link)
    (recur : List String → List String → List String → List (List String))
    (pivot : String) (R : List String) :
    List String → List String → List String → List (List String)
  | [], _, _ => []
  | c :: rest, P, X =>
      if memAdj nodes links pivot c then bkGo nodes links recur pivot R rest P X
      else
        let Rn := if c ∈ R then R else R ++ [c]
        let Pn := P.filter (fun p => memAdj nodes links c p)
        let Xn := X.filter (fun x => memAdj nodes links c x)
        recur Rn Pn Xn ++
          bkGo nodes links recur pivot R rest (P.erase c)
            (if c ∈ X then X else X ++ [c])

/-- Recursive search: when candidates and excluded are both empty the
current clique is maximal and recorded if it has at least 3 members;
otherwise the first candidate (or, with no candidates, the first excluded
node) is the pivot and the loop branches on its non-neighbors. -/
def bkAux (nodes : List String) (links : List Link) :
    Nat → List String → List String → List String → List (List String)
  | 0, _, _, _ => []
  | fuel + 1, R, P, X =>
      if P.isEmpty && X.isEmpty then
        if 3 ≤ R.length then [R] else []
      else
        let pivot := match P with | p :: _ => p | [] => X.headD ""
        bkGo nodes links (bkAux nodes links fuel) pivot R P P X

/-- Maximal-clique enumeration over the node ids, in discovery order; the
clique with id i is the entry at position i. -/
def findAllCliques (nodes : List String) (links : List Link) : List (List String) :=
  let ids := jsDedup nodes
  bkAux nodes links (ids.length + 1) [] ids []

/-! Membership resolver (getNodeCliqueMemberships). -/

/-- All clique ids whose member set contains the node id, in increasing id
(discovery) order. -/
def cliqueIdsContaining (cliques : List (List String)) (nid : String) : List Nat :=
  (List.range cliques.length).filter (fun i => decide (nid ∈ cliques.getD i []))

/-- Cardinality of the clique with the given id, the JS expression
allCliques.get(cliqueId)?.size || 0. -/
def cliqueSizeAt (cliques : List (List String)) (i : Nat) : Nat :=
  (cliques.getD i []).length

/-- Dominant clique of a node id: none with no membership, otherwise the
fold that starts from the first membership and replaces it whenever a
strictly larger clique is met. -/
def dominantClique (cliques : List (List String)) (nid : String) : Option Nat :=
  match cliqueIdsContaining cliques nid with
  | [] => none
  | c :: cs =>
      some (cs.foldl
        (fun best i => if cliqueSizeAt cliques best < cliqueSizeAt cliques i then i else best) c)

/-- Node-to-membership-list map built over the node list; a node with no
membership receives no entry. -/
def nodeToAllCliques (nodes : List GNode) (links : List Link) :
    String → Option (List Nat) :=
  let cliques := findAllCliques (nodes.map GNode.id) links
  nodes.foldl
    (fun m node =>
      match cliqueIdsContaining cliques node.id with
      | [] => m
      | l => setKey m node.id (some l))
    (fun _ => none)

/-- Node-to-dominant-clique map built over the node list; a node with no
membership receives no entry. -/
def nodeToLargestClique (nodes : List GNode) (links : List Link) :
    String → Option Nat :=
  let cliques := findAllCliques (nodes.map GNode.id) links
  nodes.foldl
    (fun m node =>
      match dominantClique cliques node.id with
      | none => m
      | some j => setKey m node.id (some j))
    (fun _ => none)

/-! Layout planner (calculateOptimalPositions). Math.cos, Math.sin,
Math.sqrt, Math.PI and Math.random are external library calls, passed in as
parameters over the rationals; rand k is the value of the k-th Math.random
call of the invocation. -/

/-- Scatter-mode pass: the root is pinned at the canvas center, every other
node is placed on the circle of radius 0.3 * min(width, height) at angle
(index / total) * 2 * pi, with the radius perturbed by
(random - 0.5) * 100.  Returns the position map together with the number of
Math.random calls consumed. -/
def scatterPositions (mcos msin : ℚ → ℚ) (rand : Nat → ℚ) (pi : ℚ)
    (nodes : List GNode) (w h : ℚ) : (String → Option (ℚ × ℚ)) × Nat :=
  let cx := w / 2
  let cy := h / 2
  let radius := min w h * (3 / 10)
  nodes.enum.foldl
    (fun (st : (String → Option (ℚ × ℚ)) × Nat) (p : Nat × GNode) =>
      if p.2.id = COLIN_USER_ID then (setKey st.1 p.2.id (some (cx, cy)), st.2)
      else
        let angle := ((p.1 : ℚ) / (nodes.length : ℚ)) * 2 * pi
        let nodeRadius := radius + (rand st.2 - 1 / 2) * 100
        (setKey st.1 p.2.id
          (some (cx + mcos angle * nodeRadius, cy + msin angle * nodeRadius)), st.2 + 1))
    ((fun _ => none), 0)

/-- Append a member to its cluster group, creating the group at the end of
the list on first sight (JS Map insertion order). -/
def addToGroup : List (Nat × List String) → Nat → String → List (Nat × List String)
  | [], cid, nid => [(cid, [nid])]
  | (c, ms) :: rest, cid, nid =>
      if c = cid then (c, ms ++ [nid]) :: rest else (c, ms) :: addToGroup rest cid nid

/-- Group the nodes by dominant clique, in node order, collecting nodes
without a dominant clique into the unclustered list. -/
def clusterGroupsOf (nodes : List GNode) (links : List Link) :
    List (Nat × List String) × List String :=
  let toLargest := nodeToLargestClique nodes links
  nodes.foldl
    (fun (st : List (Nat × List String) × List String) node =>
      match toLargest node.id with
      | some cid => (addToGroup st.1 cid node.id, st.2)
      | none => (st.1, st.2 ++ [node.id]))
    ([], [])

/-- Place the members of one cluster group: a singleton group sits at the
group center, larger groups are spread on a sub-circle of radius
max(30, sqrt(size) * 15) with a shared per-node jitter of
(random - 0.5) * 20 added to both coordinates; the root is skipped. -/
def placeGroupMembers (mcos msin : ℚ → ℚ) (rand : Nat → ℚ) (pi : ℚ)
    (ccx ccy internalRadius : ℚ) (cs : Nat)
    (st : (String → Option (ℚ × ℚ)) × Nat) (members : List (Nat × String)) :
    (String → Option (ℚ × ℚ)) × Nat :=
  members.foldl
    (fun (st : (String → Option (ℚ × ℚ)) × Nat) (p : Nat × String) =>
      if p.2 = COLIN_USER_ID then st
      else if cs = 1 then (setKey st.1 p.2 (some (ccx, ccy)), st.2)
      else
        let nodeAngle := ((p.1 : ℚ) / (cs : ℚ)) * 2 * pi
        let jitter := (rand st.2 - 1 / 2) * 20
        (setKey st.1 p.2
          (some (ccx + mcos nodeAngle * internalRadius + jitter,
                 ccy + msin nodeAngle * internalRadius + jitter)), st.2 + 1))
    st

/-- Cluster-mode pass: the root id is set to the canvas center first, each
group center sits on a circle of radius 0.25 * min(width, height), members
are placed around it, and unclustered nodes go to an outer ring of radius
1.8 times the group circle with jitter (random - 0.5) * 50. -/
def clusterPositions (mcos msin msqrt : ℚ → ℚ) (rand : Nat → ℚ) (pi : ℚ)
    (nodes : List GNode) (links : List Link) (w h : ℚ) :
    String → Option (ℚ × ℚ) :=
  let cx := w / 2
  let cy := h / 2
  let clusterRadius := min w h * (1 / 4)
  let gu := clusterGroupsOf nodes links
  let pos0 : String → Option (ℚ × ℚ) :=
    setKey (fun _ => none) COLIN_USER_ID (some (cx, cy))
  let st1 :=
    gu.1.enum.foldl
      (fun (st : (String → Option (ℚ × ℚ)) × Nat) (p : Nat × (Nat × List String)) =>
        let clusterAngle := ((p.1 : ℚ) / (gu.1.length : ℚ)) * 2 * pi
        let ccx := cx + mcos clusterAngle * clusterRadius
        let ccy := cy + msin clusterAngle * clusterRadius
        let cs := p.2.2.length
        let internalRadius := max 30 (msqrt (cs : ℚ) * 15)
        placeGroupMembers mcos msin rand pi ccx ccy internalRadius cs st p.2.2.enum)
      (pos0, 0)
  if 0 < gu.2.length then
    let outerRadius := clusterRadius * (9 / 5)
    (gu.2.enum.foldl
      (fun (st : (String → Option (ℚ × ℚ)) × Nat) (p : Nat × String) =>
        if p.2 = COLIN_USER_ID then st
        else
          let angle := ((p.1 : ℚ) / (gu.2.length : ℚ)) * 2 * pi
          let jitter := (rand st.2 - 1 / 2) * 50
          (setKey st.1 p.2
            (some (cx + mcos angle * outerRadius + jitter,
                   cy + msin angle * outerRadius + jitter)), st.2 + 1))
      st1).1
  else st1.1

/-- Layout planner: scatter mode when clique display is off, cluster mode
when it is on. -/
def calculateOptimalPositions (mcos msin msqrt : ℚ → ℚ) (rand : Nat → ℚ) (pi : ℚ)
    (nodes : List GNode) (links : List Link) (w h : ℚ) (showComponents : Bool) :
    String → Option (ℚ × ℚ) :=
  if !showComponents then (scatterPositions mcos msin rand pi nodes w h).1
  else clusterPositions mcos msin msqrt rand pi nodes links w h

/-- Pinned coordinate (fx, fy) given to the first node carrying the root id
by the render effect; none when the root id is absent. -/
def rootPinnedFxFy (nodes : List GNode) (w h : ℚ) : Option (ℚ × ℚ) :=
  match nodes.find? (fun n => n.id == COLIN_USER_ID) with
  | some _ => some (w / 2, h / 2)
  | none => none

/-! Proximity colorizer (generateProximityColors). The hsl(...) template
string is represented by its three numeric components; Math.atan2 is an
external library call passed as a parameter; Array.prototype.sort with a
comparator is modelled as a stable insertion sort, which agrees with the
ECMAScript specification whenever the comparator is consistent. -/

/-- Color produced for one clique: hue, saturation and lightness of the
hsl(...) template string. -/
structure Hsl where
  hue : ℚ
  saturation : ℚ
  lightness : ℚ
deriving DecidableEq, Repr

/-- Color of the clique at the given index of the sorted order among n
cliques. -/
def hslOf (index n : Nat) : Hsl :=
  ⟨((index : ℚ) / (n : ℚ)) * 360,
   65 + ((index % 3 : Nat) : ℚ) * 10,
   50 + ((index % 2 : Nat) : ℚ) * 10⟩

/-- Centroid of a clique: mean of the positions its members have in the
layout map; none when the member set is empty or no member has a
position. -/
def cliqueCenter (positions : String → Option (ℚ × ℚ)) (members : List String) :
    Option (ℚ × ℚ) :=
  if 0 < members.length then
    let ps := members.filterMap positions
    if 0 < ps.length then
      some (((ps.map Prod.fst).sum / (ps.length : ℚ)),
            ((ps.map Prod.snd).sum / (ps.length : ℚ)))
    else none
  else none

/-- Comparator used by the sort: difference of the centroid angles from the
canvas center, or 0 when either centroid is missing. -/
def angleComp (matan2 : ℚ → ℚ → ℚ) (centers : Nat → Option (ℚ × ℚ))
    (cx cy : ℚ) (a b : Nat) : ℚ :=
  match centers a, centers b with
  | some pa, some pb =>
      matan2 (pa.2 - cy) (pa.1 - cx) - matan2 (pb.2 - cy) (pb.1 - cx)
  | _, _ => 0

/-- Stable insertion of one element into a list sorted by the comparator:
it goes after every element comparing less than or equal. -/
def insSorted (comp : Nat → Nat → ℚ) (x : Nat) : List Nat → List Nat
  | [] => [x]
  | y :: ys => if comp y x ≤ 0 then y :: insSorted comp x ys else x :: y :: ys

/-- Stable comparator sort modelling Array.prototype.sort. -/
def jsSortBy (comp : Nat → Nat → ℚ) (l : List Nat) : List Nat :=
  l.foldl (fun acc x => insSorted comp x acc) []

/-- Centroid of the clique with a given id. -/
def cliqueCenterAt (positions : String → Option (ℚ × ℚ))
    (cliques : List (List String)) (cid : Nat) : Option (ℚ × ℚ) :=
  match cliques.get? cid with
  | some ms => cliqueCenter positions ms
  | none => none

/-- Clique ids sorted by centroid angle from the canvas center. -/
def sortedCliqueIds (matan2 : ℚ → ℚ → ℚ) (cliques : List (List String))
    (positions : String → Option (ℚ × ℚ)) (w h : ℚ) : List Nat :=
  jsSortBy (angleComp matan2 (cliqueCenterAt positions cliques) (w / 2) (h / 2))
    (List.range cliques.length)

/-- Proximity colorizer: empty table for an empty clique set, otherwise the
clique at sorted index i receives hue (i / count) * 360 with the saturation
and lightness offsets of the source. -/
def generateProximityColors (matan2 : ℚ → ℚ → ℚ) (cliques : List (List String))
    (positions : String → Option (ℚ × ℚ)) (w h : ℚ) : Nat → Option Hsl :=
  if cliques.length = 0 then fun _ => none
  else
    let sorted := sortedCliqueIds matan2 cliques positions w h
    sorted.enum.foldl
      (fun tbl (p : Nat × Nat) => setKey tbl p.2 (some (hslOf p.1 sorted.length)))
      (fun _ => none)

/-! Lemmas about the edge normalizer. -/

theorem bidirAux_mono {x : String} :
    ∀ (links : List Link) (keys bid : List String), x ∈ bid →
      x ∈ buildBidirAux links keys bid := by
  intro links
  induction links with
  | nil => intro keys bid h; simpa [buildBidirAux] using h
  | cons l rest ih =>
    intro keys bid h
    simp only [buildBidirAux]
    split
    · exact ih _ _ (List.mem_cons_of_mem _ h)
    · exact ih _ _ h

theorem bidirAux_of_rev_key {a b : String} :
    ∀ (links : List Link) (keys bid : List String),
      Link.mk a b ∈ links → edgeKey b a ∈ keys →
      pairKey a b ∈ buildBidirAux links keys bid := by
  intro links
  induction links with
  | nil => intro keys bid h; simp at h
  | cons l rest ih =>
    intro keys bid hmem hkey
    simp only [buildBidirAux]
    rcases List.mem_cons.mp hmem with heq | hrest
    · subst heq
      rw [if_pos (List.mem_cons_of_mem _ hkey)]
      exact bidirAux_mono _ _ _ (List.mem_cons_self _ _)
    · split
      · exact ih _ _ hrest (List.mem_cons_of_mem _ hkey)
      · exact ih _ _ hrest (List.mem_cons_of_mem _ hkey)

theorem bidir_of_both {a b : String} :
    ∀ (links : List Link) (keys bid : List String),
      Link.mk a b ∈ links → Link.mk b a ∈ links →
      pairKey a b ∈ buildBidirAux links keys bid := by
  intro links
  induction links with
  | nil => intro keys bid h; simp at h
  | cons l rest ih =>
    intro keys bid hab hba
    rcases List.mem_cons.mp hab with heqab | hrab
    · rcases List.mem_cons.mp hba with heqba | hrba
      · -- both equal the head: a = b, and the self key is found immediately
        have h2 : Link.mk b a = Link.mk a b := heqba.trans heqab.symm
        have hEq : b = a := congrArg Link.source h2
        subst hEq
        rw [← heqab]
        simp only [buildBidirAux]
        rw [if_pos (List.mem_cons_self _ _)]
        exact bidirAux_mono _ _ _ (List.mem_cons_self _ _)
      · -- head is the (a, b) link, the reverse link sits in the tail
        rw [← heqab]
        simp only [buildBidirAux]
        have h1 := @bidirAux_of_rev_key b a rest
          (edgeKey a b :: keys)
          (if edgeKey b a ∈ edgeKey a b :: keys then pairKey a b :: bid else bid)
          hrba (List.mem_cons_self _ _)
        rw [pairKey_comm b a] at h1
        exact h1
    · rcases List.mem_cons.mp hba with heqba | hrba
      · -- head is the (b, a) link, the forward link sits in the tail
        rw [← heqba]
        simp only [buildBidirAux]
        exact @bidirAux_of_rev_key a b rest
          (edgeKey b a :: keys)
          (if edgeKey a b ∈ edgeKey b a :: keys then pairKey b a :: bid else bid)
          hrab (List.mem_cons_self _ _)
      · simp only [buildBidirAux]
        exact ih _ _ hrab hrba

theorem emitAux_mem {bidir : List String} :
    ∀ (links : List Link) (processed : List String) (nl : NLink),
      nl ∈ emitAux bidir links processed →
      ∃ l ∈ links, nl.source = l.source ∧ nl.target = l.target ∧
        nl.bidirectional = decide (pairKey l.source l.target ∈ bidir) := by
  intro links
  induction links with
  | nil => intro processed nl h; simp [emitAux] at h
  | cons l rest ih =>
    intro processed nl h
    simp only [emitAux] at h
    split at h
    · obtain ⟨l', hl', hs⟩ := ih _ _ h
      exact ⟨l', List.mem_cons_of_mem _ hl', hs⟩
    · rcases List.mem_cons.mp h with heq | hrest
      · subst heq
        exact ⟨l, List.mem_cons_self _ _, rfl, rfl, rfl⟩
      · obtain ⟨l', hl', hs⟩ := ih _ _ hrest
        exact ⟨l', List.mem_cons_of_mem _ hl', hs⟩

theorem emitAux_avoid {bidir : List String} {pk : String} (hb : pk ∈ bidir) :
    ∀ (links : List Link) (processed : List String), pk ∈ processed →
      ∀ nl ∈ emitAux bidir links processed, pairKey nl.source nl.target ≠ pk := by
  intro links
  induction links with
  | nil => intro processed hp nl h; simp [emitAux] at h
  | cons l rest ih =>
    intro processed hp nl h
    simp only [emitAux] at h
    split at h
    · exact ih _ hp nl h
    · next hskip =>
      rcases List.mem_cons.mp h with heq | hrest
      · subst heq
        intro hcontra
        exact hskip ⟨hcontra ▸ hb, hcontra ▸ hp⟩
      · refine ih _ ?_ nl hrest
        split
        · exact List.mem_cons_of_mem _ hp
        · exact hp

theorem emitAux_pairwise {bidir : List String} :
    ∀ (links : List Link) (processed : List String),
      (links.map fun l => (l.source, l.target)).Nodup →
      (∀ a b : String, Link.mk a b ∈ links → Link.mk b a ∈ links →
        pairKey a b ∈ bidir) →
      (emitAux bidir links processed).Pairwise (fun l1 l2 => ¬ sameUnordPair l1 l2) := by
  intro links
  induction links with
  | nil => intro processed _ _; simp [emitAux]
  | cons l rest ih =>
    intro processed hnd hB
    have hndRest : (rest.map fun l => (l.source, l.target)).Nodup :=
      (List.nodup_cons.mp hnd).2
    have hBRest : ∀ a b : String, Link.mk a b ∈ rest → Link.mk b a ∈ rest →
        pairKey a b ∈ bidir := fun a b h1 h2 =>
      hB a b (List.mem_cons_of_mem _ h1) (List.mem_cons_of_mem _ h2)
    have hHeadNotRest : (l.source, l.target) ∉ rest.map fun l => (l.source, l.target) :=
      (List.nodup_cons.mp hnd).1
    simp only [emitAux]
    split
    · exact ih _ hndRest hBRest
    · next hskip =>
      refine List.Pairwise.cons ?_ (ih _ hndRest hBRest)
      intro nl' h' hsame
      obtain ⟨l', hl', hsrc, htgt, _⟩ := emitAux_mem rest _ nl' h'
      rcases hsame with ⟨h1, h2⟩ | ⟨h1, h2⟩
      · -- same orientation: the directed pair repeats, contradicting Nodup
        dsimp only at h1 h2
        apply hHeadNotRest
        have hpair : (l'.source, l'.target) = (l.source, l.target) := by
          rw [← hsrc, ← htgt, ← h1, ← h2]
        rw [← hpair]
        exact List.mem_map_of_mem _ hl'
      · -- opposite orientation
        dsimp only at h1 h2
        by_cases hst : l.source = l.target
        · apply hHeadNotRest
          have e1 : l'.source = l.source := by rw [← hsrc, ← h2, hst]
          have e2 : l'.target = l.target := by rw [← htgt, ← h1, hst]
          have hpair : (l'.source, l'.target) = (l.source, l.target) := by
            rw [e1, e2]
          rw [← hpair]
          exact List.mem_map_of_mem _ hl'
        · -- a genuine reverse link in the tail: the pair is bidirectional,
          -- the head emission marks it processed, so the tail cannot emit it
          have hlrev : l' = Link.mk l.target l.source := by
            cases l' with
            | mk s t =>
              simp only [Link.mk.injEq]
              exact ⟨(h2.trans hsrc).symm, (h1.trans htgt).symm⟩
          have hrev : Link.mk l.target l.source ∈ rest := hlrev ▸ hl'
          have hbd : pairKey l.source l.target ∈ bidir :=
            hB l.source l.target (List.mem_cons_self _ _)
              (List.mem_cons_of_mem _ hrev)
          have hisB : decide (pairKey l.source l.target ∈ bidir) = true := by
            simpa using hbd
          have h'' : nl' ∈ emitAux bidir rest (pairKey l.source l.target :: processed) := by
            simpa [hisB] using h'
          have hne := emitAux_avoid hbd rest
            (pairKey l.source l.target :: processed) (List.mem_cons_self _ _) nl' h''
          apply hne
          rw [hsrc, htgt, hlrev]
          exact pairKey_comm _ _

theorem buildBidirAux_src {L0 : List Link} :
    ∀ (links : List Link) (keys bid : List String) (x : String),
      (∀ l ∈ links, l ∈ L0) →
      (∀ k ∈ keys, ∃ u v : String, Link.mk u v ∈ L0 ∧ k = edgeKey u v) →
      x ∈ buildBidirAux links keys bid →
      x ∈ bid ∨ ∃ s t : String, Link.mk s t ∈ L0 ∧ x = pairKey s t ∧
        ∃ u v : String, Link.mk u v ∈ L0 ∧ edgeKey t s = edgeKey u v := by
  intro links
  induction links with
  | nil => intro keys bid x _ _ h; left; simpa [buildBidirAux] using h
  | cons l rest ih =>
    intro keys bid x hlinks hkeys h
    simp only [buildBidirAux] at h
    have hlinks1 : ∀ l' ∈ rest, l' ∈ L0 := fun l' h' =>
      hlinks l' (List.mem_cons_of_mem _ h')
    have hl0 : l ∈ L0 := hlinks l (List.mem_cons_self _ _)
    have hkeys1 : ∀ k ∈ edgeKey l.source l.target :: keys,
        ∃ u v : String, Link.mk u v ∈ L0 ∧ k = edgeKey u v := by
      intro k hk
      rcases List.mem_cons.mp hk with heq | htl
      · exact ⟨l.source, l.target, hl0, heq⟩
      · exact hkeys k htl
    have := ih _ _ x hlinks1 hkeys1 h
    rcases this with hbid1 | hbig
    · by_cases hrk : edgeKey l.target l.source ∈ edgeKey l.source l.target :: keys
      · rw [if_pos hrk] at hbid1
        rcases List.mem_cons.mp hbid1 with heq | hbid
        · right
          refine ⟨l.source, l.target, hl0, heq, ?_⟩
          obtain ⟨u, v, huv, hk⟩ := hkeys1 _ hrk
          exact ⟨u, v, huv, hk⟩
        · left; exact hbid
      · rw [if_neg hrk] at hbid1
        left; exact hbid1
    · right; exact hbig

/-- Endpoint ids occurring in a raw link list. -/
def linkIds (links : List Link) : List String :=
  links.flatMap (fun l => [l.source, l.target])

theorem linkIds_src {links : List Link} {l : Link} (h : l ∈ links) :
    l.source ∈ linkIds links := by
  simp only [linkIds, List.mem_flatMap]
  exact ⟨l, h, by simp⟩

theorem linkIds_tgt {links : List Link} {l : Link} (h : l ∈ links) :
    l.target ∈ linkIds links := by
  simp only [linkIds, List.mem_flatMap]
  exact ⟨l, h, by simp⟩

/-- Key encoding is collision-free on the ids of the list: distinct directed
pairs have distinct arrow keys and distinct unordered pairs have distinct
pair keys.  This holds whenever no id contains the arrow separators. -/
def keysInjOn (links : List Link) : Prop :=
  (∀ a ∈ linkIds links, ∀ b ∈ linkIds links, ∀ c ∈ linkIds links, ∀ d ∈ linkIds links,
    edgeKey a b = edgeKey c d → a = c ∧ b = d) ∧
  (∀ a ∈ linkIds links, ∀ b ∈ linkIds links, ∀ c ∈ linkIds links, ∀ d ∈ linkIds links,
    pairKey a b = pairKey c d → (a = c ∧ b = d) ∨ (a = d ∧ b = c))

instance (links : List Link) : Decidable (keysInjOn links) := by
  unfold keysInjOn; infer_instance

/-! Claims C1 and C2. -/

/-- C1, counterexample: on the raw list with the directed edge a to b
repeated, the edge-normalization step emits two output links over the same
unordered pair, so the claim fails for lists containing repeated directed
edges. -/
theorem c1_counterexample :
    ¬ (normalizeLinks [⟨"a", "b"⟩, ⟨"a", "b"⟩]).Pairwise
        (fun l1 l2 => ¬ sameUnordPair l1 l2) := by decide

/-- C1, amended: for every raw edge list in which no directed edge repeats,
the edge-normalization step of the pipeline produces an output link list
with no two links representing the same unordered pair of node ids. -/
theorem c1_theorem (links : List Link)
    (hnd : (links.map fun l => (l.source, l.target)).Nodup) :
    (normalizeLinks links).Pairwise (fun l1 l2 => ¬ sameUnordPair l1 l2) := by
  unfold normalizeLinks
  refine emitAux_pairwise links [] hnd ?_
  intro a b h1 h2
  exact bidir_of_both links [] [] h1 h2

/-- C1, witness: the amended theorem applied to a concrete mutual pair. -/
theorem c1_witness :
    ((([⟨"a", "b"⟩, ⟨"b", "a"⟩] : List Link).map fun l => (l.source, l.target)).Nodup) ∧
    (normalizeLinks [⟨"a", "b"⟩, ⟨"b", "a"⟩]).Pairwise
      (fun l1 l2 => ¬ sameUnordPair l1 l2) :=
  ⟨by decide, c1_theorem _ (by decide)⟩

/-- C2, counterexample: with an id containing the arrow separator the
directed-edge keys of distinct links collide, and the normalizer marks a
link bidirectional although the reverse directed edge never occurs in the
raw list. -/
theorem c2_counterexample :
    (⟨"z", "x->y", true⟩ : NLink) ∈
        normalizeLinks [⟨"x", "y->z"⟩, ⟨"z", "x->y"⟩] ∧
    ("z" : String) ≠ "x->y" ∧
    (⟨"x->y", "z"⟩ : Link) ∉ [Link.mk "x" "y->z", Link.mk "z" "x->y"] := by
  refine ⟨by decide, by decide, by decide⟩

/-- C2, amended: when the key encoding is collision-free on the ids of the
raw list (as is the case whenever no id contains the arrow separators), an
output link over distinct node ids carries bidirectional flag true if and
only if both directed edges between its endpoints occur in the raw list. -/
theorem c2_theorem (links : List Link) (nl : NLink) (hinj : keysInjOn links)
    (hmem : nl ∈ normalizeLinks links) (_hne : nl.source ≠ nl.target) :
    nl.bidirectional = true ↔
      (Link.mk nl.source nl.target ∈ links ∧ Link.mk nl.target nl.source ∈ links) := by
  obtain ⟨l, hl, hsrc, htgt, hflag⟩ := emitAux_mem links [] nl hmem
  rw [hsrc, htgt, hflag]
  constructor
  · intro hT
    have hpk : pairKey l.source l.target ∈ buildBidir links := of_decide_eq_true hT
    unfold buildBidir at hpk
    have hsrcc := @buildBidirAux_src links links [] []
      (pairKey l.source l.target) (fun _ h => h) (by simp) hpk
    rcases hsrcc with h0 | ⟨s, t, hst, hxpk, u, v, huv, hek⟩
    · simp at h0
    · have htu : t = u ∧ s = v :=
        hinj.1 t (linkIds_tgt hst) s (linkIds_src hst) u (linkIds_src huv)
          v (linkIds_tgt huv) hek
      have hts : Link.mk t s ∈ links := by
        rw [htu.1, htu.2]; exact huv
      have hcase :=
        hinj.2 l.source (linkIds_src hl) l.target (linkIds_tgt hl)
          s (linkIds_src hst) t (linkIds_tgt hst) hxpk
      rcases hcase with ⟨e1, e2⟩ | ⟨e1, e2⟩
      · rw [e1, e2]; exact ⟨hst, hts⟩
      · rw [e1, e2]; exact ⟨hts, hst⟩
  · intro hboth
    apply decide_eq_true
    exact bidir_of_both links [] [] hboth.1 hboth.2

/-- C2, witness: the amended theorem applied to a concrete mutual pair. -/
theorem c2_witness :
    keysInjOn [⟨"a", "b"⟩, ⟨"b", "a"⟩] ∧
    (⟨"a", "b", true⟩ : NLink) ∈ normalizeLinks [⟨"a", "b"⟩, ⟨"b", "a"⟩] ∧
    ("a" : String) ≠ "b" ∧
    ((⟨"a", "b", true⟩ : NLink).bidirectional = true ↔
      (Link.mk "a" "b" ∈ [Link.mk "a" "b", Link.mk "b" "a"] ∧
       Link.mk "b" "a" ∈ [Link.mk "a" "b", Link.mk "b" "a"])) :=
  ⟨by decide, by decide, by decide,
    c2_theorem [⟨"a", "b"⟩, ⟨"b", "a"⟩] ⟨"a", "b", true⟩
      (by decide) (by decide) (by decide)⟩

/-! Claims C3 and C10. -/

/-- C3, counterexample: condensing the two-leaf star a second time is not
the identity: the placeholder (degree 1) is classified as a leaf again and
replaced by a placeholder relabeled to one leaf connection. -/
theorem c3_counterexample :
    processNetworkData
        (processNetworkData
          ⟨[⟨COLIN_USER_ID, "colin", 0, 0⟩, ⟨"a", "a", 0, 0⟩, ⟨"b", "b", 0, 0⟩],
           [⟨COLIN_USER_ID, "a"⟩, ⟨COLIN_USER_ID, "b"⟩]⟩ true) true ≠
      processNetworkData
        ⟨[⟨COLIN_USER_ID, "colin", 0, 0⟩, ⟨"a", "a", 0, 0⟩, ⟨"b", "b", 0, 0⟩],
         [⟨COLIN_USER_ID, "a"⟩, ⟨COLIN_USER_ID, "b"⟩]⟩ true := by decide

/-- C3, amended: the placeholder id carries no exemption: like any non-root
node, whenever the condensed placeholder occurs in a graph with unique-
neighbor count at most 1 it is classified as leaf-eligible, so the leaf
condensation function is not idempotent. -/
theorem c3_theorem (g : GraphData) (n : GNode) (hmem : n ∈ g.nodes)
    (hid : n.id = CONDENSED_ID) (hcnt : connCountVal g n.id ≤ 1) :
    n ∈ leafNodesOf g := by
  unfold leafNodesOf
  rw [List.mem_filter]
  refine ⟨hmem, ?_⟩
  rw [decide_eq_true_eq]
  refine ⟨?_, hcnt⟩
  rw [hid]
  decide

/-- C3, witness: the amended theorem applied to the once-condensed star. -/
theorem c3_witness :
    (⟨CONDENSED_ID, "2 leaf connections", 0, 0⟩ : GNode) ∈
        (⟨[⟨COLIN_USER_ID, "colin", 0, 0⟩, ⟨CONDENSED_ID, "2 leaf connections", 0, 0⟩],
          [⟨COLIN_USER_ID, CONDENSED_ID⟩]⟩ : GraphData).nodes ∧
    (⟨CONDENSED_ID, "2 leaf connections", 0, 0⟩ : GNode).id = CONDENSED_ID ∧
    connCountVal
      ⟨[⟨COLIN_USER_ID, "colin", 0, 0⟩, ⟨CONDENSED_ID, "2 leaf connections", 0, 0⟩],
       [⟨COLIN_USER_ID, CONDENSED_ID⟩]⟩
      (⟨CONDENSED_ID, "2 leaf connections", 0, 0⟩ : GNode).id ≤ 1 ∧
    (⟨CONDENSED_ID, "2 leaf connections", 0, 0⟩ : GNode) ∈
      leafNodesOf
        ⟨[⟨COLIN_USER_ID, "colin", 0, 0⟩, ⟨CONDENSED_ID, "2 leaf connections", 0, 0⟩],
         [⟨COLIN_USER_ID, CONDENSED_ID⟩]⟩ :=
  ⟨by decide, by decide, by decide,
    c3_theorem _ _ (by decide) (by decide) (by decide)⟩

/-- C10: leaf classification uses unique-neighbor counts computed on the
input graph only, so every non-root node whose input count exceeds 1 is
retained by the condenser, whatever happens to its degree after the leaves
are removed. -/
theorem c10_theorem (g : GraphData) (n : GNode) (hmem : n ∈ g.nodes)
    (_hroot : n.id ≠ COLIN_USER_ID) (hcnt : 1 < connCountVal g n.id) :
    n ∈ (processNetworkData g true).nodes := by
  unfold processNetworkData
  split
  · exact hmem
  · dsimp only
    split
    · exact hmem
    · rw [List.mem_append]
      left
      rw [List.mem_filter]
      refine ⟨hmem, ?_⟩
      rw [decide_eq_true_eq]
      exact Or.inr hcnt

/-- C10, witness: in the path root - x - a the middle node x has two unique
neighbors in the input and survives condensation although removing the leaf
a drops its remaining degree to 1. -/
theorem c10_witness :
    (⟨"x", "x", 0, 0⟩ : GNode) ∈
        (⟨[⟨COLIN_USER_ID, "colin", 0, 0⟩, ⟨"x", "x", 0, 0⟩, ⟨"a", "a", 0, 0⟩],
          [⟨COLIN_USER_ID, "x"⟩, ⟨"x", "a"⟩]⟩ : GraphData).nodes ∧
    (⟨"x", "x", 0, 0⟩ : GNode).id ≠ COLIN_USER_ID ∧
    1 < connCountVal
        ⟨[⟨COLIN_USER_ID, "colin", 0, 0⟩, ⟨"x", "x", 0, 0⟩, ⟨"a", "a", 0, 0⟩],
         [⟨COLIN_USER_ID, "x"⟩, ⟨"x", "a"⟩]⟩ (⟨"x", "x", 0, 0⟩ : GNode).id ∧
    (⟨"x", "x", 0, 0⟩ : GNode) ∈
      (processNetworkData
        ⟨[⟨COLIN_USER_ID, "colin", 0, 0⟩, ⟨"x", "x", 0, 0⟩, ⟨"a", "a", 0, 0⟩],
         [⟨COLIN_USER_ID, "x"⟩, ⟨"x", "a"⟩]⟩ true).nodes :=
  ⟨by decide, by decide, by decide,
    c10_theorem _ _ (by decide) (by decide) (by decide)⟩

/-! Lemmas for the membership resolver. -/

theorem mem_cliqueIdsContaining (cliques : List (List String)) (nid : String) (i : Nat) :
    i ∈ cliqueIdsContaining cliques nid ↔
      (i < cliques.length ∧ nid ∈ cliques.getD i []) := by
  simp [cliqueIdsContaining, List.mem_filter, List.mem_range]

theorem cliqueIdsContaining_sorted (cliques : List (List String)) (nid : String) :
    (cliqueIdsContaining cliques nid).Pairwise (· < ·) :=
  (List.pairwise_lt_range _).filter _

theorem foldl_largest (sz : Nat → Nat) :
    ∀ (l : List Nat) (c : Nat), (c :: l).Pairwise (· < ·) →
      (l.foldl (fun best i => if sz best < sz i then i else best) c ∈ c :: l) ∧
      (∀ i ∈ c :: l,
        sz i ≤ sz (l.foldl (fun best i => if sz best < sz i then i else best) c)) ∧
      (∀ i ∈ c :: l,
        sz i = sz (l.foldl (fun best i => if sz best < sz i then i else best) c) →
        l.foldl (fun best i => if sz best < sz i then i else best) c ≤ i) := by
  intro l
  induction l with
  | nil =>
    intro c _
    refine ⟨List.mem_cons_self _ _, ?_, ?_⟩
    · intro i hi
      rcases List.mem_cons.mp hi with h | h
      · rw [h]; exact le_rfl
      · simp at h
    · intro i hi _
      rcases List.mem_cons.mp hi with h | h
      · rw [h]; exact le_rfl
      · simp at h
  | cons x rest ih =>
    intro c hpw
    have hcx : c < x := (List.pairwise_cons.mp hpw).1 x (List.mem_cons_self _ _)
    have hcrest : ∀ y ∈ rest, c < y := fun y hy =>
      (List.pairwise_cons.mp hpw).1 y (List.mem_cons_of_mem _ hy)
    have hxpw : (x :: rest).Pairwise (· < ·) := (List.pairwise_cons.mp hpw).2
    have hxrest : ∀ y ∈ rest, x < y := (List.pairwise_cons.mp hxpw).1
    have hrestpw : rest.Pairwise (· < ·) := (List.pairwise_cons.mp hxpw).2
    simp only [List.foldl_cons]
    by_cases hlt : sz c < sz x
    · rw [if_pos hlt]
      have hpw2 : (x :: rest).Pairwise (· < ·) := hxpw
      obtain ⟨hm, hmax, htie⟩ := ih x hpw2
      refine ⟨?_, ?_, ?_⟩
      · rcases List.mem_cons.mp hm with h | h
        · rw [h]; exact List.mem_cons_of_mem _ (List.mem_cons_self _ _)
        · exact List.mem_cons_of_mem _ (List.mem_cons_of_mem _ h)
      · intro i hi
        rcases List.mem_cons.mp hi with h | hi2
        · rw [h]
          exact le_trans (le_of_lt hlt) (hmax x (List.mem_cons_self _ _))
        · exact hmax i hi2
      · intro i hi heq
        rcases List.mem_cons.mp hi with h | hi2
        · exfalso
          have h1 : sz x ≤ sz (rest.foldl (fun best i => if sz best < sz i then i else best) x) :=
            hmax x (List.mem_cons_self _ _)
          rw [← heq, h] at h1
          exact absurd (lt_of_lt_of_le hlt h1) (lt_irrefl _)
        · exact htie i hi2 heq
    · rw [if_neg hlt]
      have hpw2 : (c :: rest).Pairwise (· < ·) := by
        rw [List.pairwise_cons]
        exact ⟨hcrest, hrestpw⟩
      obtain ⟨hm, hmax, htie⟩ := ih c hpw2
      refine ⟨?_, ?_, ?_⟩
      · rcases List.mem_cons.mp hm with h | h
        · rw [h]; exact List.mem_cons_self _ _
        · exact List.mem_cons_of_mem _ (List.mem_cons_of_mem _ h)
      · intro i hi
        rcases List.mem_cons.mp hi with h | hi2
        · rw [h]; exact hmax c (List.mem_cons_self _ _)
        · rcases List.mem_cons.mp hi2 with h | h
          · rw [h]
            exact le_trans (not_lt.mp hlt) (hmax c (List.mem_cons_self _ _))
          · exact hmax i (List.mem_cons_of_mem _ h)
      · intro i hi heq
        rcases List.mem_cons.mp hi with h | hi2
        · rw [h]; exact htie c (List.mem_cons_self _ _) (h ▸ heq)
        · rcases List.mem_cons.mp hi2 with h | h
          · -- tie with x while x was not strictly larger than c
            have hcle : sz c ≤ sz (rest.foldl (fun best i => if sz best < sz i then i else best) c) :=
              hmax c (List.mem_cons_self _ _)
            have hxc : sz i ≤ sz c := h ▸ not_lt.mp hlt
            have hceq : sz c = sz (rest.foldl (fun best i => if sz best < sz i then i else best) c) :=
              le_antisymm hcle (by rw [← heq]; exact hxc)
            have hjc := htie c (List.mem_cons_self _ _) hceq
            rw [h]
            exact le_trans hjc (le_of_lt hcx)
          · exact htie i (List.mem_cons_of_mem _ h) heq

theorem nodeToAllCliques_fold (cliques : List (List String)) :
    ∀ (nodes : List GNode) (m : String → Option (List Nat)) (nid : String),
      (m nid = (match cliqueIdsContaining cliques nid with | [] => none | l => some l) ∨
        nid ∈ nodes.map GNode.id) →
      (cliqueIdsContaining cliques nid = [] → m nid = none) →
      (nodes.foldl
        (fun m node =>
          match cliqueIdsContaining cliques node.id with
          | [] => m
          | l => setKey m node.id (some l)) m) nid =
        (match cliqueIdsContaining cliques nid with | [] => none | l => some l) := by
  intro nodes
  induction nodes with
  | nil =>
    intro m nid h1 _
    rcases h1 with h | h
    · exact h
    · simp at h
  | cons node rest ih =>
    intro m nid h1 h2
    simp only [List.foldl_cons]
    by_cases heq : node.id = nid
    · subst heq
      rcases hC : cliqueIdsContaining cliques node.id with _ | ⟨x, xs⟩
      · dsimp only
        have h3 := ih m node.id (Or.inl (by rw [hC]; exact h2 hC)) h2
        rw [hC] at h3
        exact h3
      · dsimp only
        have hmv : (setKey m node.id (some (x :: xs))) node.id =
            match cliqueIdsContaining cliques node.id with | [] => none | l => some l := by
          rw [hC]; simp [setKey]
        have h3 := ih (setKey m node.id (some (x :: xs))) node.id (Or.inl hmv)
          (by intro h0; rw [h0] at hC; cases hC)
        rw [hC] at h3
        exact h3
    · have hmemr : nid ∈ rest.map GNode.id ∨ m nid =
          (match cliqueIdsContaining cliques nid with | [] => none | l => some l) := by
        rcases h1 with h | h
        · exact Or.inr h
        · rw [List.map_cons] at h
          rcases List.mem_cons.mp h with hh | hh
          · exact absurd hh.symm heq
          · exact Or.inl hh
      rcases hC : cliqueIdsContaining cliques node.id with _ | ⟨x, xs⟩
      · dsimp only
        exact ih m nid hmemr.symm h2
      · dsimp only
        have hval : setKey m node.id (some (x :: xs)) nid = m nid := by
          unfold setKey
          rw [if_neg (fun hh => heq hh.symm)]
        refine ih _ nid ?_ ?_
        · rcases hmemr with h | h
          · right; exact h
          · left; rw [hval]; exact h
        · intro h0
          rw [hval]
          exact h2 h0

theorem nodeToLargestClique_fold (cliques : List (List String)) :
    ∀ (nodes : List GNode) (m : String → Option Nat) (nid : String),
      (m nid = dominantClique cliques nid ∨ nid ∈ nodes.map GNode.id) →
      (dominantClique cliques nid = none → m nid = none) →
      (nodes.foldl
        (fun m node =>
          match dominantClique cliques node.id with
          | none => m
          | some j => setKey m node.id (some j)) m) nid =
        dominantClique cliques nid := by
  intro nodes
  induction nodes with
  | nil =>
    intro m nid h1 _
    rcases h1 with h | h
    · exact h
    · simp at h
  | cons node rest ih =>
    intro m nid h1 h2
    simp only [List.foldl_cons]
    by_cases heq : node.id = nid
    · subst heq
      rcases hC : dominantClique cliques node.id with _ | j
      · dsimp only
        have h3 := ih m node.id (Or.inl (by rw [hC]; exact h2 hC)) h2
        rw [hC] at h3
        exact h3
      · dsimp only
        have hmv : (setKey m node.id (some j)) node.id = dominantClique cliques node.id := by
          rw [hC]; simp [setKey]
        have h3 := ih (setKey m node.id (some j)) node.id (Or.inl hmv)
          (by intro h0; rw [h0] at hC; cases hC)
        rw [hC] at h3
        exact h3
    · have hmemr : nid ∈ rest.map GNode.id ∨ m nid = dominantClique cliques nid := by
        rcases h1 with h | h
        · exact Or.inr h
        · rw [List.map_cons] at h
          rcases List.mem_cons.mp h with hh | hh
          · exact absurd hh.symm heq
          · exact Or.inl hh
      rcases hC : dominantClique cliques node.id with _ | j
      · dsimp only
        exact ih m nid hmemr.symm h2
      · dsimp only
        have hval : setKey m node.id (some j) nid = m nid := by
          unfold setKey
          rw [if_neg (fun hh => heq hh.symm)]
        refine ih _ nid ?_ ?_
        · rcases hmemr with h | h
          · right; exact h
          · left; rw [hval]; exact h
        · intro h0
          rw [hval]
          exact h2 h0

/-- C5: for every node of the graph, the membership list contains exactly
the ids of the cliques containing the node (in discovery order); the
node-to-all-cliques map stores exactly that list (absent when empty); the
dominant-clique map agrees with the fold of the source and, when the node
has memberships, picks a member clique of maximal cardinality, with ties
broken by the earliest discovered clique id; a node with no membership is
absent from the dominant-clique mapping. -/
theorem c5_theorem (nodes : List GNode) (links : List Link) (nid : String)
    (C : List (List String)) (hC : C = findAllCliques (nodes.map GNode.id) links)
    (hmem : nid ∈ nodes.map GNode.id) :
    (∀ i : Nat, i ∈ cliqueIdsContaining C nid ↔
        (i < C.length ∧ nid ∈ C.getD i [])) ∧
    (nodeToAllCliques nodes links nid =
      match cliqueIdsContaining C nid with | [] => none | l => some l) ∧
    (nodeToLargestClique nodes links nid = dominantClique C nid) ∧
    (cliqueIdsContaining C nid = [] → nodeToLargestClique nodes links nid = none) ∧
    (∀ x xs, cliqueIdsContaining C nid = x :: xs →
      ∃ j, nodeToLargestClique nodes links nid = some j ∧
        j ∈ cliqueIdsContaining C nid ∧
        (∀ i ∈ cliqueIdsContaining C nid, cliqueSizeAt C i ≤ cliqueSizeAt C j) ∧
        (∀ i ∈ cliqueIdsContaining C nid,
          cliqueSizeAt C i = cliqueSizeAt C j → j ≤ i)) := by
  subst hC
  have hAll : nodeToAllCliques nodes links nid =
      match cliqueIdsContaining (findAllCliques (nodes.map GNode.id) links) nid with
      | [] => none
      | l => some l := by
    unfold nodeToAllCliques
    exact nodeToAllCliques_fold _ nodes _ nid (Or.inr hmem) (fun _ => rfl)
  have hLargest : nodeToLargestClique nodes links nid =
      dominantClique (findAllCliques (nodes.map GNode.id) links) nid := by
    unfold nodeToLargestClique
    exact nodeToLargestClique_fold _ nodes _ nid (Or.inr hmem) (fun _ => rfl)
  refine ⟨fun i => mem_cliqueIdsContaining _ _ i, hAll, hLargest, ?_, ?_⟩
  · intro h0
    rw [hLargest]
    unfold dominantClique
    rw [h0]
  · intro x xs hcons
    have hpw : (x :: xs).Pairwise (· < ·) := by
      rw [← hcons]
      exact cliqueIdsContaining_sorted _ _
    obtain ⟨hm, hmax, htie⟩ :=
      foldl_largest (cliqueSizeAt (findAllCliques (nodes.map GNode.id) links)) xs x hpw
    refine ⟨xs.foldl
      (fun best i =>
        if cliqueSizeAt (findAllCliques (nodes.map GNode.id) links) best <
            cliqueSizeAt (findAllCliques (nodes.map GNode.id) links) i
        then i else best) x, ?_, ?_, ?_, ?_⟩
    · rw [hLargest]
      unfold dominantClique
      rw [hcons]
    · rw [hcons]; exact hm
    · intro i hi
      rw [hcons] at hi
      exact hmax i hi
    · intro i hi
      rw [hcons] at hi
      exact htie i hi

/-- C5, witness: the resolver on the single triangle, evaluated at node a. -/
theorem c5_witness :
    ([["a", "b", "c"]] : List (List String)) =
        findAllCliques
          ((([⟨"a", "a", 0, 0⟩, ⟨"b", "b", 0, 0⟩, ⟨"c", "c", 0, 0⟩] : List GNode)).map GNode.id)
          [⟨"a", "b"⟩, ⟨"b", "c"⟩, ⟨"c", "a"⟩] ∧
    ("a" : String) ∈ (([⟨"a", "a", 0, 0⟩, ⟨"b", "b", 0, 0⟩, ⟨"c", "c", 0, 0⟩] : List GNode)).map GNode.id ∧
    (∀ i : Nat, i ∈ cliqueIdsContaining [["a", "b", "c"]] "a" ↔
        (i < ([["a", "b", "c"]] : List (List String)).length ∧
         "a" ∈ ([["a", "b", "c"]] : List (List String)).getD i [])) ∧
    (nodeToAllCliques [⟨"a", "a", 0, 0⟩, ⟨"b", "b", 0, 0⟩, ⟨"c", "c", 0, 0⟩]
        [⟨"a", "b"⟩, ⟨"b", "c"⟩, ⟨"c", "a"⟩] "a" =
      match cliqueIdsContaining [["a", "b", "c"]] "a" with | [] => none | l => some l) ∧
    (nodeToLargestClique [⟨"a", "a", 0, 0⟩, ⟨"b", "b", 0, 0⟩, ⟨"c", "c", 0, 0⟩]
        [⟨"a", "b"⟩, ⟨"b", "c"⟩, ⟨"c", "a"⟩] "a" =
      dominantClique [["a", "b", "c"]] "a") ∧
    (∀ x xs, cliqueIdsContaining [["a", "b", "c"]] "a" = x :: xs →
      ∃ j, nodeToLargestClique [⟨"a", "a", 0, 0⟩, ⟨"b", "b", 0, 0⟩, ⟨"c", "c", 0, 0⟩]
          [⟨"a", "b"⟩, ⟨"b", "c"⟩, ⟨"c", "a"⟩] "a" = some j ∧
        j ∈ cliqueIdsContaining [["a", "b", "c"]] "a" ∧
        (∀ i ∈ cliqueIdsContaining [["a", "b", "c"]] "a",
          cliqueSizeAt [["a", "b", "c"]] i ≤ cliqueSizeAt [["a", "b", "c"]] j) ∧
        (∀ i ∈ cliqueIdsContaining [["a", "b", "c"]] "a",
          cliqueSizeAt [["a", "b", "c"]] i = cliqueSizeAt [["a", "b", "c"]] j → j ≤ i)) := by
  have h := c5_theorem [⟨"a", "a", 0, 0⟩, ⟨"b", "b", 0, 0⟩, ⟨"c", "c", 0, 0⟩]
    [⟨"a", "b"⟩, ⟨"b", "c"⟩, ⟨"c", "a"⟩] "a" [["a", "b", "c"]] (by decide) (by decide)
  exact ⟨by decide, by decide, h.1, h.2.1, h.2.2.1, h.2.2.2.2⟩

/-! Lemmas for the layout planner. -/

theorem scatterFold_colin (mcos msin : ℚ → ℚ) (rand : Nat → ℚ) (pi : ℚ)
    (nodes : List GNode) (w h : ℚ) :
    ∀ (l : List (Nat × GNode)) (st : (String → Option (ℚ × ℚ)) × Nat),
      (st.1 COLIN_USER_ID = some (w / 2, h / 2) ∨
        COLIN_USER_ID ∈ l.map (fun p => p.2.id)) →
      (l.foldl
        (fun (st : (String → Option (ℚ × ℚ)) × Nat) (p : Nat × GNode) =>
          if p.2.id = COLIN_USER_ID then
            (setKey st.1 p.2.id (some (w / 2, h / 2)), st.2)
          else
            (setKey st.1 p.2.id
              (some (w / 2 + mcos (((p.1 : ℚ) / (nodes.length : ℚ)) * 2 * pi) *
                      (min w h * (3 / 10) + (rand st.2 - 1 / 2) * 100),
                    h / 2 + msin (((p.1 : ℚ) / (nodes.length : ℚ)) * 2 * pi) *
                      (min w h * (3 / 10) + (rand st.2 - 1 / 2) * 100))), st.2 + 1))
        st).1 COLIN_USER_ID = some (w / 2, h / 2) := by
  intro l
  induction l with
  | nil =>
    intro st h1
    rcases h1 with h | h
    · exact h
    · simp at h
  | cons p rest ih =>
    intro st h1
    simp only [List.foldl_cons]
    by_cases hid : p.2.id = COLIN_USER_ID
    · rw [if_pos hid]
      refine ih _ (Or.inl ?_)
      rw [← hid]
      simp [setKey]
    · rw [if_neg hid]
      refine ih _ ?_
      rcases h1 with hL | hR
      · left
        dsimp only
        rw [setKey, if_neg (fun hh => hid hh.symm)]
        exact hL
      · rw [List.map_cons] at hR
        rcases List.mem_cons.mp hR with hh | hh
        · exact absurd hh.symm hid
        · exact Or.inr hh

theorem placeGroupMembers_colin (mcos msin : ℚ → ℚ) (rand : Nat → ℚ) (pi : ℚ)
    (ccx ccy internalRadius : ℚ) (cs : Nat) :
    ∀ (members : List (Nat × String)) (st : (String → Option (ℚ × ℚ)) × Nat),
      (placeGroupMembers mcos msin rand pi ccx ccy internalRadius cs st members).1
          COLIN_USER_ID = st.1 COLIN_USER_ID := by
  intro members
  induction members with
  | nil => intro st; rfl
  | cons p rest ih =>
    intro st
    unfold placeGroupMembers at ih ⊢
    simp only [List.foldl_cons]
    by_cases hid : p.2 = COLIN_USER_ID
    · rw [if_pos hid]
      exact ih st
    · rw [if_neg hid]
      by_cases hcs : cs = 1
      · rw [if_pos hcs]
        rw [ih _]
        dsimp only
        rw [setKey, if_neg (fun hh => hid hh.symm)]
      · rw [if_neg hcs]
        rw [ih _]
        dsimp only
        rw [setKey, if_neg (fun hh => hid hh.symm)]

theorem clusterPositions_colin (mcos msin msqrt : ℚ → ℚ) (rand : Nat → ℚ) (pi : ℚ)
    (nodes : List GNode) (links : List Link) (w h : ℚ) :
    clusterPositions mcos msin msqrt rand pi nodes links w h COLIN_USER_ID =
      some (w / 2, h / 2) := by
  unfold clusterPositions
  have hground :
      ∀ (gl : List (Nat × (Nat × List String)))
        (st : (String → Option (ℚ × ℚ)) × Nat),
        (gl.foldl
          (fun (st : (String → Option (ℚ × ℚ)) × Nat) (p : Nat × (Nat × List String)) =>
            placeGroupMembers mcos msin rand pi
              (w / 2 + mcos (((p.1 : ℚ) / ((clusterGroupsOf nodes links).1.length : ℚ)) * 2 * pi) *
                (min w h * (1 / 4)))
              (h / 2 + msin (((p.1 : ℚ) / ((clusterGroupsOf nodes links).1.length : ℚ)) * 2 * pi) *
                (min w h * (1 / 4)))
              (max 30 (msqrt (p.2.2.length : ℚ) * 15)) p.2.2.length st p.2.2.enum)
          st).1 COLIN_USER_ID = st.1 COLIN_USER_ID := by
    intro gl
    induction gl with
    | nil => intro st; rfl
    | cons p rest ih =>
      intro st
      simp only [List.foldl_cons]
      rw [ih _]
      exact placeGroupMembers_colin _ _ _ _ _ _ _ _ _ _
  have houter :
      ∀ (ul : List (Nat × String)) (st : (String → Option (ℚ × ℚ)) × Nat),
        (ul.foldl
          (fun (st : (String → Option (ℚ × ℚ)) × Nat) (p : Nat × String) =>
            if p.2 = COLIN_USER_ID then st
            else
              (setKey st.1 p.2
                (some (w / 2 + mcos (((p.1 : ℚ) / ((clusterGroupsOf nodes links).2.length : ℚ)) * 2 * pi) *
                        (min w h * (1 / 4) * (9 / 5)) + (rand st.2 - 1 / 2) * 50,
                      h / 2 + msin (((p.1 : ℚ) / ((clusterGroupsOf nodes links).2.length : ℚ)) * 2 * pi) *
                        (min w h * (1 / 4) * (9 / 5)) + (rand st.2 - 1 / 2) * 50)), st.2 + 1))
          st).1 COLIN_USER_ID = st.1 COLIN_USER_ID := by
    intro ul
    induction ul with
    | nil => intro st; rfl
    | cons p rest ih =>
      intro st
      simp only [List.foldl_cons]
      by_cases hid : p.2 = COLIN_USER_ID
      · rw [if_pos hid]
        exact ih st
      · rw [if_neg hid]
        rw [ih _]
        dsimp only
        rw [setKey, if_neg (fun hh => hid hh.symm)]
  dsimp only
  split
  · rw [houter _ _, hground _ _]
    simp [setKey]
  · rw [hground _ _]
    simp [setKey]

/-- C6: whenever the root id occurs in the node list, the layout planner
assigns the root exactly the canvas center (width / 2, height / 2) in both
scatter mode (clique display off) and cluster mode (clique display on), and
the render effect pins the root there through fx and fy. -/
theorem c6_theorem (mcos msin msqrt : ℚ → ℚ) (rand : Nat → ℚ) (pi : ℚ)
    (nodes : List GNode) (links : List Link) (w h : ℚ)
    (hmem : COLIN_USER_ID ∈ nodes.map GNode.id) :
    calculateOptimalPositions mcos msin msqrt rand pi nodes links w h false
        COLIN_USER_ID = some (w / 2, h / 2) ∧
    calculateOptimalPositions mcos msin msqrt rand pi nodes links w h true
        COLIN_USER_ID = some (w / 2, h / 2) ∧
    rootPinnedFxFy nodes w h = some (w / 2, h / 2) := by
  refine ⟨?_, ?_, ?_⟩
  · show (scatterPositions mcos msin rand pi nodes w h).1 COLIN_USER_ID =
      some (w / 2, h / 2)
    unfold scatterPositions
    refine scatterFold_colin mcos msin rand pi nodes w h nodes.enum _ (Or.inr ?_)
    have hmap : nodes.enum.map (fun p => p.2.id) = nodes.map GNode.id := by
      rw [show (fun p : Nat × GNode => p.2.id) = (GNode.id ∘ Prod.snd) from rfl,
        ← List.map_map, List.enum_map_snd]
    rw [hmap]
    exact hmem
  · exact clusterPositions_colin mcos msin msqrt rand pi nodes links w h
  · unfold rootPinnedFxFy
    rcases hf : nodes.find? (fun n => n.id == COLIN_USER_ID) with _ | n
    · exfalso
      obtain ⟨n, hn, hid⟩ := List.mem_map.mp hmem
      exact absurd (by simpa using hid) (List.find?_eq_none.mp hf n hn)
    · rw [hf]

/-- C6, witness: the planner and pin on a concrete two-node graph. -/
theorem c6_witness :
    COLIN_USER_ID ∈
      (([⟨COLIN_USER_ID, "colin", 0, 0⟩, ⟨"a", "a", 0, 0⟩] : List GNode)).map GNode.id ∧
    calculateOptimalPositions (fun _ => 1) (fun _ => 0) (fun _ => 0) (fun _ => 1 / 2) 3
        [⟨COLIN_USER_ID, "colin", 0, 0⟩, ⟨"a", "a", 0, 0⟩] [⟨COLIN_USER_ID, "a"⟩]
        100 80 false COLIN_USER_ID = some (100 / 2, 80 / 2) ∧
    calculateOptimalPositions (fun _ => 1) (fun _ => 0) (fun _ => 0) (fun _ => 1 / 2) 3
        [⟨COLIN_USER_ID, "colin", 0, 0⟩, ⟨"a", "a", 0, 0⟩] [⟨COLIN_USER_ID, "a"⟩]
        100 80 true COLIN_USER_ID = some (100 / 2, 80 / 2) ∧
    rootPinnedFxFy [⟨COLIN_USER_ID, "colin", 0, 0⟩, ⟨"a", "a", 0, 0⟩] 100 80 =
      some (100 / 2, 80 / 2) := by
  have h := c6_theorem (fun _ => 1) (fun _ => 0) (fun _ => 0) (fun _ => 1 / 2) 3
    [⟨COLIN_USER_ID, "colin", 0, 0⟩, ⟨"a", "a", 0, 0⟩] [⟨COLIN_USER_ID, "a"⟩]
    100 80 (by decide)
  exact ⟨by decide, h.1, h.2.1, h.2.2⟩

/-- C7, counterexample: on the empty graph with clique display on, the
layout planner's position map is not empty: it contains the root id, which
the cluster branch inserts unconditionally. -/
theorem c7_counterexample :
    calculateOptimalPositions (fun _ => 0) (fun _ => 0) (fun _ => 0) (fun _ => 0) 3
      [] [] 100 80 true COLIN_USER_ID ≠ none := by decide

/-- C7, amended: on the empty graph every stage returns an empty result -
empty normalized links, unchanged empty graph from the condenser under both
toggle values, no cliques, empty membership maps, empty scatter position
map, empty color table - except the cluster-mode layout map, which consists
of exactly one entry: the root id at the canvas center. -/
theorem c7_theorem (mcos msin msqrt : ℚ → ℚ) (matan2 : ℚ → ℚ → ℚ) (rand : Nat → ℚ)
    (pi w h : ℚ) (pos : String → Option (ℚ × ℚ)) :
    normalizeLinks [] = [] ∧
    processNetworkData ⟨[], []⟩ false = ⟨[], []⟩ ∧
    processNetworkData ⟨[], []⟩ true = ⟨[], []⟩ ∧
    findAllCliques [] [] = [] ∧
    (∀ nid, nodeToAllCliques [] [] nid = none) ∧
    (∀ nid, nodeToLargestClique [] [] nid = none) ∧
    (∀ nid, calculateOptimalPositions mcos msin msqrt rand pi [] [] w h false nid = none) ∧
    (∀ cid, generateProximityColors matan2 [] pos w h cid = none) ∧
    calculateOptimalPositions mcos msin msqrt rand pi [] [] w h true COLIN_USER_ID =
      some (w / 2, h / 2) ∧
    (∀ nid, nid ≠ COLIN_USER_ID →
      calculateOptimalPositions mcos msin msqrt rand pi [] [] w h true nid = none) := by
  refine ⟨rfl, rfl, rfl, rfl, fun _ => rfl, fun _ => rfl, fun _ => rfl, fun _ => rfl,
    ?_, ?_⟩
  · exact clusterPositions_colin mcos msin msqrt rand pi [] [] w h
  · intro nid hne
    show setKey (fun _ => none) COLIN_USER_ID (some (w / 2, h / 2)) nid = none
    rw [setKey, if_neg hne]

/-- C7, witness: the amended empty-graph theorem at concrete parameters,
with the non-root lookup discharged at a concrete id. -/
theorem c7_witness :
    calculateOptimalPositions (fun _ => 0) (fun _ => 0) (fun _ => 0) (fun _ => 0) 3
        [] [] 100 80 true COLIN_USER_ID = some (100 / 2, 80 / 2) ∧
    ("q" : String) ≠ COLIN_USER_ID ∧
    calculateOptimalPositions (fun _ => 0) (fun _ => 0) (fun _ => 0) (fun _ => 0) 3
        [] [] 100 80 true "q" = none :=
  ⟨(c7_theorem (fun _ => 0) (fun _ => 0) (fun _ => 0) (fun _ _ => 0) (fun _ => 0) 3
      100 80 (fun _ => none)).2.2.2.2.2.2.2.2.1,
   by decide,
   (c7_theorem (fun _ => 0) (fun _ => 0) (fun _ => 0) (fun _ _ => 0) (fun _ => 0) 3
      100 80 (fun _ => none)).2.2.2.2.2.2.2.2.2 "q" (by decide)⟩

/-! Lemmas for the scatter-mode placement formula (claim C8). -/

/-- Number of Math.random calls consumed by the scatter pass before it
reaches node index i: one call per earlier non-root node. -/
def scatterRandIndex (nodes : List GNode) (i : Nat) : Nat :=
  ((nodes.take i).filter (fun n => decide (n.id ≠ COLIN_USER_ID))).length

theorem scatterFold_preserve (mcos msin : ℚ → ℚ) (rand : Nat → ℚ) (pi : ℚ)
    (nodes : List GNode) (w h : ℚ) (x : String) :
    ∀ (l : List GNode) (j : Nat) (st : (String → Option (ℚ × ℚ)) × Nat),
      (∀ n ∈ l, n.id ≠ x) →
      ((List.enumFrom j l).foldl
        (fun (st : (String → Option (ℚ × ℚ)) × Nat) (p : Nat × GNode) =>
          if p.2.id = COLIN_USER_ID then
            (setKey st.1 p.2.id (some (w / 2, h / 2)), st.2)
          else
            (setKey st.1 p.2.id
              (some (w / 2 + mcos (((p.1 : ℚ) / (nodes.length : ℚ)) * 2 * pi) *
                      (min w h * (3 / 10) + (rand st.2 - 1 / 2) * 100),
                    h / 2 + msin (((p.1 : ℚ) / (nodes.length : ℚ)) * 2 * pi) *
                      (min w h * (3 / 10) + (rand st.2 - 1 / 2) * 100))), st.2 + 1))
        st).1 x = st.1 x := by
  intro l
  induction l with
  | nil => intro j st _; rfl
  | cons n rest ih =>
    intro j st hne
    simp only [List.enumFrom, List.foldl_cons]
    have hnx : n.id ≠ x := hne n (List.mem_cons_self _ _)
    have hrest : ∀ m ∈ rest, m.id ≠ x := fun m hm => hne m (List.mem_cons_of_mem _ hm)
    by_cases hid : n.id = COLIN_USER_ID
    · rw [if_pos hid, ih _ _ hrest]
      dsimp only
      rw [setKey, if_neg (fun hh => hnx hh.symm)]
    · rw [if_neg hid, ih _ _ hrest]
      dsimp only
      rw [setKey, if_neg (fun hh => hnx hh.symm)]

theorem scatterFold_spec (mcos msin : ℚ → ℚ) (rand : Nat → ℚ) (pi : ℚ)
    (nodes : List GNode) (w h : ℚ) :
    ∀ (l : List GNode) (j : Nat) (st : (String → Option (ℚ × ℚ)) × Nat)
      (i : Nat) (hi : i < l.length),
      (l.map GNode.id).Nodup →
      (l.get ⟨i, hi⟩).id ≠ COLIN_USER_ID →
      ((List.enumFrom j l).foldl
        (fun (st : (String → Option (ℚ × ℚ)) × Nat) (p : Nat × GNode) =>
          if p.2.id = COLIN_USER_ID then
            (setKey st.1 p.2.id (some (w / 2, h / 2)), st.2)
          else
            (setKey st.1 p.2.id
              (some (w / 2 + mcos (((p.1 : ℚ) / (nodes.length : ℚ)) * 2 * pi) *
                      (min w h * (3 / 10) + (rand st.2 - 1 / 2) * 100),
                    h / 2 + msin (((p.1 : ℚ) / (nodes.length : ℚ)) * 2 * pi) *
                      (min w h * (3 / 10) + (rand st.2 - 1 / 2) * 100))), st.2 + 1))
        st).1 (l.get ⟨i, hi⟩).id =
        some (w / 2 + mcos ((((j + i : Nat) : ℚ) / (nodes.length : ℚ)) * 2 * pi) *
                (min w h * (3 / 10) +
                  (rand (st.2 + scatterRandIndex l i) - 1 / 2) * 100),
              h / 2 + msin ((((j + i : Nat) : ℚ) / (nodes.length : ℚ)) * 2 * pi) *
                (min w h * (3 / 10) +
                  (rand (st.2 + scatterRandIndex l i) - 1 / 2) * 100)) := by
  intro l
  induction l with
  | nil => intro j st i hi; exact absurd hi (by simp)
  | cons n rest ih =>
    intro j st i hi hnd hroot
    simp only [List.enumFrom, List.foldl_cons]
    rw [List.map_cons] at hnd
    have hcons := List.nodup_cons.mp hnd
    rcases i with _ | m
    · -- the head node is the target
      have hget : (n :: rest).get ⟨0, hi⟩ = n := rfl
      rw [hget] at hroot ⊢
      rw [if_neg hroot]
      have hothers : ∀ x ∈ rest, x.id ≠ n.id := by
        intro x hx hcontra
        exact hcons.1 (hcontra ▸ List.mem_map_of_mem GNode.id hx)
      rw [scatterFold_preserve mcos msin rand pi nodes w h _ rest (j + 1) _ hothers]
      dsimp only
      rw [setKey, if_pos rfl]
      have hk : scatterRandIndex (n :: rest) 0 = 0 := rfl
      rw [hk, Nat.add_zero, Nat.add_zero]
    · -- the target sits in the tail
      have hndr : (rest.map GNode.id).Nodup := hcons.2
      have hm : m < rest.length := Nat.lt_of_succ_lt_succ hi
      have hgets : (n :: rest).get ⟨m + 1, hi⟩ = rest.get ⟨m, hm⟩ := rfl
      rw [hgets] at hroot ⊢
      by_cases hid : n.id = COLIN_USER_ID
      · rw [if_pos hid, ih (j + 1) _ m hm hndr hroot]
        have hj : j + 1 + m = j + (m + 1) := by omega
        have hk : scatterRandIndex rest m = scatterRandIndex (n :: rest) (m + 1) := by
          unfold scatterRandIndex
          simp [List.take_succ_cons, List.filter_cons, hid]
        dsimp only
        rw [hj, hk]
      · rw [if_neg hid, ih (j + 1) _ m hm hndr hroot]
        have hj : j + 1 + m = j + (m + 1) := by omega
        have hk : st.2 + 1 + scatterRandIndex rest m =
            st.2 + scatterRandIndex (n :: rest) (m + 1) := by
          unfold scatterRandIndex
          simp only [List.take_succ_cons, List.filter_cons]
          rw [if_pos (by simpa using hid)]
          simp only [List.length_cons]
          omega
        dsimp only
        rw [hj, hk]

/-- C8: in scatter mode a non-root node at index i of n nodes is placed at
the canvas center displaced along the direction of angle (i / n) * 2 * pi
(through the external cosine and sine) by the radius
0.3 * min(width, height) plus a random offset; whenever every value of the
random source lies in the interval from 0 inclusive to 1 exclusive, that
offset lies within plus or minus 50 units. -/
theorem c8_theorem (mcos msin msqrt : ℚ → ℚ) (rand : Nat → ℚ) (pi : ℚ)
    (nodes : List GNode) (links : List Link) (w h : ℚ) (i : Nat) (hi : i < nodes.length)
    (hnd : (nodes.map GNode.id).Nodup)
    (hroot : (nodes.get ⟨i, hi⟩).id ≠ COLIN_USER_ID)
    (hr : ∀ k, 0 ≤ rand k ∧ rand k < 1) :
    ∃ off : ℚ,
      calculateOptimalPositions mcos msin msqrt rand pi nodes links w h false
          (nodes.get ⟨i, hi⟩).id =
        some (w / 2 + mcos (((i : ℚ) / (nodes.length : ℚ)) * 2 * pi) *
                (min w h * (3 / 10) + off),
              h / 2 + msin (((i : ℚ) / (nodes.length : ℚ)) * 2 * pi) *
                (min w h * (3 / 10) + off)) ∧
      -50 ≤ off ∧ off < 50 := by
  refine ⟨(rand (scatterRandIndex nodes i) - 1 / 2) * 100, ?_, ?_, ?_⟩
  · show (scatterPositions mcos msin rand pi nodes w h).1 _ = _
    unfold scatterPositions
    have h3 := scatterFold_spec mcos msin rand pi nodes w h nodes 0
      ((fun _ => none), 0) i hi hnd hroot
    simp only [Nat.zero_add] at h3
    exact h3
  · linarith [(hr (scatterRandIndex nodes i)).1]
  · linarith [(hr (scatterRandIndex nodes i)).2]

/-- C8, witness: the scatter formula at index 1 of a concrete two-node list
with the random source constantly one half. -/
theorem c8_witness :
    ((([⟨COLIN_USER_ID, "colin", 0, 0⟩, ⟨"a", "a", 0, 0⟩] : List GNode)).map GNode.id).Nodup ∧
    (([⟨COLIN_USER_ID, "colin", 0, 0⟩, ⟨"a", "a", 0, 0⟩] : List GNode).get
        ⟨1, by decide⟩).id ≠ COLIN_USER_ID ∧
    (∀ k : Nat, 0 ≤ (fun _ : Nat => (1 : ℚ) / 2) k ∧ (fun _ : Nat => (1 : ℚ) / 2) k < 1) ∧
    (∃ off : ℚ,
      calculateOptimalPositions (fun _ => 1) (fun _ => 0) (fun _ => 0)
          (fun _ : Nat => (1 : ℚ) / 2) 3
          [⟨COLIN_USER_ID, "colin", 0, 0⟩, ⟨"a", "a", 0, 0⟩] [] 100 80 false
          (([⟨COLIN_USER_ID, "colin", 0, 0⟩, ⟨"a", "a", 0, 0⟩] : List GNode).get
            ⟨1, by decide⟩).id =
        some (100 / 2 + (fun _ : ℚ => (1 : ℚ)) (((1 : ℚ) / ((2 : Nat) : ℚ)) * 2 * 3) *
                (min 100 80 * (3 / 10) + off),
              80 / 2 + (fun _ : ℚ => (0 : ℚ)) (((1 : ℚ) / ((2 : Nat) : ℚ)) * 2 * 3) *
                (min 100 80 * (3 / 10) + off)) ∧
      -50 ≤ off ∧ off < 50) := by
  refine ⟨by decide, by decide, fun k => ⟨by norm_num, by norm_num⟩, ?_⟩
  have h := c8_theorem (fun _ => 1) (fun _ => 0) (fun _ => 0)
    (fun _ : Nat => (1 : ℚ) / 2) 3
    [⟨COLIN_USER_ID, "colin", 0, 0⟩, ⟨"a", "a", 0, 0⟩] [] 100 80 1 (by decide)
    (by decide) (by decide) (fun k => ⟨by norm_num, by norm_num⟩)
  simpa using h

/-! Lemmas for the proximity colorizer (claim C9). -/

theorem insSorted_perm (comp : Nat → Nat → ℚ) (x : Nat) :
    ∀ l : List Nat, (insSorted comp x l).Perm (x :: l) := by
  intro l
  induction l with
  | nil => simp [insSorted]
  | cons y ys ih =>
    unfold insSorted
    split
    · exact ((ih.cons y).trans (List.Perm.swap x y ys)).symm.symm
    · exact List.Perm.refl _

theorem jsSortBy_perm_aux (comp : Nat → Nat → ℚ) :
    ∀ (l acc : List Nat),
      (l.foldl (fun acc x => insSorted comp x acc) acc).Perm (acc ++ l) := by
  intro l
  induction l with
  | nil => intro acc; simp
  | cons x xs ih =>
    intro acc
    simp only [List.foldl_cons]
    refine (ih (insSorted comp x acc)).trans ?_
    have h1 : (insSorted comp x acc ++ xs).Perm ((x :: acc) ++ xs) :=
      (insSorted_perm comp x acc).append_right xs
    refine h1.trans ?_
    exact List.perm_middle.symm

theorem jsSortBy_perm (comp : Nat → Nat → ℚ) (l : List Nat) :
    (jsSortBy comp l).Perm l := by
  simpa using jsSortBy_perm_aux comp l []

theorem colorFold_preserve (n : Nat) (x : Nat) :
    ∀ (l : List Nat) (j : Nat) (tbl : Nat → Option Hsl),
      (∀ c ∈ l, c ≠ x) →
      ((List.enumFrom j l).foldl
        (fun tbl (p : Nat × Nat) => setKey tbl p.2 (some (hslOf p.1 n))) tbl) x = tbl x := by
  intro l
  induction l with
  | nil => intro j tbl _; rfl
  | cons c rest ih =>
    intro j tbl hne
    simp only [List.enumFrom, List.foldl_cons]
    rw [ih _ _ (fun d hd => hne d (List.mem_cons_of_mem _ hd))]
    rw [setKey, if_neg (fun hh => hne c (List.mem_cons_self _ _) hh.symm)]

theorem colorFold_spec (n : Nat) :
    ∀ (l : List Nat) (j : Nat) (tbl : Nat → Option Hsl) (i : Nat) (hi : i < l.length),
      l.Nodup →
      ((List.enumFrom j l).foldl
        (fun tbl (p : Nat × Nat) => setKey tbl p.2 (some (hslOf p.1 n))) tbl)
          (l.get ⟨i, hi⟩) = some (hslOf (j + i) n) := by
  intro l
  induction l with
  | nil => intro j tbl i hi; exact absurd hi (by simp)
  | cons c rest ih =>
    intro j tbl i hi hnd
    have hcons := List.nodup_cons.mp hnd
    simp only [List.enumFrom, List.foldl_cons]
    rcases i with _ | m
    · have hget : (c :: rest).get ⟨0, hi⟩ = c := rfl
      rw [hget]
      rw [colorFold_preserve n c rest (j + 1) _ (fun d hd hh => hcons.1 (hh ▸ hd))]
      rw [setKey, if_pos rfl, Nat.add_zero]
    · have hm : m < rest.length := Nat.lt_of_succ_lt_succ hi
      have hget : (c :: rest).get ⟨m + 1, hi⟩ = rest.get ⟨m, hm⟩ := rfl
      rw [hget, ih (j + 1) _ m hm hcons.2]
      have hj : j + 1 + m = j + (m + 1) := by omega
      rw [hj]

/-- C9: for a non-empty clique set of n cliques, the sorted order is a
permutation of the clique ids, the clique at sorted index i receives the
color of hue (i / n) * 360, consecutive entries of the sorted order receive
hues exactly 360 / n apart, and with n at most 12 all assigned hues are
pairwise distinct. -/
theorem c9_theorem (matan2 : ℚ → ℚ → ℚ) (cliques : List (List String))
    (positions : String → Option (ℚ × ℚ)) (w h : ℚ) (hne : cliques ≠ []) :
    (sortedCliqueIds matan2 cliques positions w h).Perm (List.range cliques.length) ∧
    (∀ (i : Nat) (hi : i < (sortedCliqueIds matan2 cliques positions w h).length),
      generateProximityColors matan2 cliques positions w h
          ((sortedCliqueIds matan2 cliques positions w h).get ⟨i, hi⟩) =
        some (hslOf i cliques.length)) ∧
    (∀ i : Nat, i + 1 < cliques.length →
      (hslOf (i + 1) cliques.length).hue - (hslOf i cliques.length).hue =
        360 / (cliques.length : ℚ)) ∧
    (cliques.length ≤ 12 → ∀ i j : Nat, i < cliques.length → j < cliques.length →
      i ≠ j → (hslOf i cliques.length).hue ≠ (hslOf j cliques.length).hue) := by
  have hn0 : cliques.length ≠ 0 := fun hh => hne (List.length_eq_zero.mp hh)
  have hq0 : ((cliques.length : ℚ)) ≠ 0 := Nat.cast_ne_zero.mpr hn0
  have hperm : (sortedCliqueIds matan2 cliques positions w h).Perm
      (List.range cliques.length) :=
    jsSortBy_perm _ _
  have hlen : (sortedCliqueIds matan2 cliques positions w h).length = cliques.length := by
    rw [hperm.length_eq, List.length_range]
  have hnd : (sortedCliqueIds matan2 cliques positions w h).Nodup :=
    hperm.nodup_iff.mpr (List.nodup_range _)
  refine ⟨hperm, ?_, ?_, ?_⟩
  · intro i hi
    unfold generateProximityColors
    rw [if_neg hn0]
    have h3 := colorFold_spec (sortedCliqueIds matan2 cliques positions w h).length
      (sortedCliqueIds matan2 cliques positions w h) 0 (fun _ => none) i hi hnd
    simp only [Nat.zero_add] at h3
    rw [← hlen]
    exact h3
  · intro i _
    unfold hslOf
    dsimp only
    push_cast
    field_simp
    ring
  · intro _ i j hi hj hij hcontra
    apply hij
    simp only [hslOf] at hcontra
    have h5 := mul_right_cancel₀ (by norm_num : (360 : ℚ) ≠ 0) hcontra
    rw [div_eq_div_iff hq0 hq0] at h5
    have h6 := mul_right_cancel₀ hq0 h5
    exact_mod_cast h6

/-- C9, witness: the colorizer on two concrete cliques with a constant
angle source. -/
theorem c9_witness :
    (([["a", "b", "c"], ["c", "d", "e"]] : List (List String)) ≠ []) ∧
    (sortedCliqueIds (fun _ _ => 0) [["a", "b", "c"], ["c", "d", "e"]]
        (fun _ => some (1, 2)) 100 80).Perm
      (List.range ([["a", "b", "c"], ["c", "d", "e"]] : List (List String)).length) ∧
    (∀ (i : Nat) (hi : i < (sortedCliqueIds (fun _ _ => 0) [["a", "b", "c"], ["c", "d", "e"]]
        (fun _ => some (1, 2)) 100 80).length),
      generateProximityColors (fun _ _ => 0) [["a", "b", "c"], ["c", "d", "e"]]
          (fun _ => some (1, 2)) 100 80
          ((sortedCliqueIds (fun _ _ => 0) [["a", "b", "c"], ["c", "d", "e"]]
            (fun _ => some (1, 2)) 100 80).get ⟨i, hi⟩) =
        some (hslOf i ([["a", "b", "c"], ["c", "d", "e"]] : List (List String)).length)) ∧
    (∀ i : Nat, i + 1 < ([["a", "b", "c"], ["c", "d", "e"]] : List (List String)).length →
      (hslOf (i + 1) ([["a", "b", "c"], ["c", "d", "e"]] : List (List String)).length).hue -
          (hslOf i ([["a", "b", "c"], ["c", "d", "e"]] : List (List String)).length).hue =
        360 / ((([["a", "b", "c"], ["c", "d", "e"]] : List (List String)).length : ℚ))) := by
  have h := c9_theorem (fun _ _ => 0) [["a", "b", "c"], ["c", "d", "e"]]
    (fun _ => some (1, 2)) 100 80 (by decide)
  exact ⟨by decide, h.1, h.2.1, h.2.2.1⟩

/-! Lemmas for the clique finder (claim C4). -/

theorem memAdj_symm {nodes : List String} {links : List Link} {a b : String}
    (hb : b ∈ nodes) (h : memAdj nodes links a b = true) :
    memAdj nodes links b a = true := by
  unfold memAdj at h ⊢
  rw [Bool.and_eq_true] at h
  rw [Bool.and_eq_true]
  refine ⟨by simpa using hb, ?_⟩
  rw [List.any_eq_true] at h ⊢
  obtain ⟨l, hl, hcond⟩ := h.2
  refine ⟨l, hl, ?_⟩
  rw [Bool.or_eq_true] at hcond ⊢
  exact hcond.symm

theorem jsDedupAux_mem (x : String) :
    ∀ (l acc : List String),
      (x ∈ l.foldl (fun acc y => if y ∈ acc then acc else acc ++ [y]) acc ↔
        (x ∈ acc ∨ x ∈ l)) := by
  intro l
  induction l with
  | nil => intro acc; simp
  | cons y ys ih =>
    intro acc
    simp only [List.foldl_cons]
    by_cases hy : y ∈ acc
    · rw [if_pos hy, ih acc]
      constructor
      · rintro (h | h)
        · exact Or.inl h
        · exact Or.inr (List.mem_cons_of_mem _ h)
      · rintro (h | h)
        · exact Or.inl h
        · rcases List.mem_cons.mp h with rfl | h
          · exact Or.inl hy
          · exact Or.inr h
    · rw [if_neg hy, ih (acc ++ [y])]
      constructor
      · rintro (h | h)
        · rcases List.mem_append.mp h with h | h
          · exact Or.inl h
          · exact Or.inr (List.mem_cons.mpr (Or.inl (by simpa using h)))
        · exact Or.inr (List.mem_cons_of_mem _ h)
      · rintro (h | h)
        · exact Or.inl (List.mem_append.mpr (Or.inl h))
        · rcases List.mem_cons.mp h with rfl | h
          · exact Or.inl (List.mem_append.mpr (Or.inr (by simp)))
          · exact Or.inr h

theorem mem_jsDedup (l : List String) (x : String) : x ∈ jsDedup l ↔ x ∈ l := by
  unfold jsDedup
  rw [jsDedupAux_mem x l []]
  simp

theorem jsDedupAux_nodup :
    ∀ (l acc : List String), acc.Nodup →
      (l.foldl (fun acc y => if y ∈ acc then acc else acc ++ [y]) acc).Nodup := by
  intro l
  induction l with
  | nil => intro acc h; simpa using h
  | cons y ys ih =>
    intro acc h
    simp only [List.foldl_cons]
    by_cases hy : y ∈ acc
    · rw [if_pos hy]; exact ih acc h
    · rw [if_neg hy]
      refine ih _ ?_
      simp [List.nodup_append, h, hy]

theorem jsDedup_nodup (l : List String) : (jsDedup l).Nodup :=
  jsDedupAux_nodup l [] (by simp)

/-- Invariant of the Bron-Kerbosch search: the current clique is a clique
over the node set, every candidate is adjacent to the whole current clique,
and every node adjacent to the whole current clique sits in the candidate
or excluded set. -/
structure BKInv (nodes : List String) (links : List Link) (R P X : List String) : Prop where
  rSub : ∀ a ∈ R, a ∈ nodes
  pSub : ∀ a ∈ P, a ∈ nodes
  xSub : ∀ a ∈ X, a ∈ nodes
  rNodup : R.Nodup
  pNodup : P.Nodup
  rClique : ∀ a ∈ R, ∀ b ∈ R, a ≠ b → memAdj nodes links a b = true
  pAdj : ∀ p ∈ P, ∀ r ∈ R, memAdj nodes links p r = true
  maxInv : ∀ v ∈ nodes, v ∉ R → (∀ r ∈ R, memAdj nodes links v r = true) → v ∈ P ∨ v ∈ X

/-- Maximal clique of the adjacency derived from the links: a complete
subgraph of the node set with at least 3 members that no further node
extends. -/
def goodClique (nodes : List String) (links : List Link) (C : List String) : Prop :=
  3 ≤ C.length ∧ C.Nodup ∧ (∀ a ∈ C, a ∈ nodes) ∧
  (∀ a ∈ C, ∀ b ∈ C, a ≠ b → memAdj nodes links a b = true) ∧
  (∀ v ∈ nodes, v ∉ C → ¬ (∀ a ∈ C, memAdj nodes links v a = true))

theorem BKInv_branch {nodes : List String} {links : List Link}
    {R P X : List String} {c : String}
    (inv : BKInv nodes links R P X) (hc : c ∈ P) :
    BKInv nodes links (if c ∈ R then R else R ++ [c])
      (P.filter (fun p => memAdj nodes links c p))
      (X.filter (fun x => memAdj nodes links c x)) := by
  have hcn : c ∈ nodes := inv.pSub c hc
  by_cases hcR : c ∈ R
  · rw [if_pos hcR]
    refine ⟨inv.rSub, ?_, ?_, inv.rNodup, inv.pNodup.filter _, inv.rClique, ?_, ?_⟩
    · intro a ha; exact inv.pSub a (List.mem_filter.mp ha).1
    · intro a ha; exact inv.xSub a (List.mem_filter.mp ha).1
    · intro p hp r hr; exact inv.pAdj p (List.mem_filter.mp hp).1 r hr
    · intro v hv hvR hadj
      have hvc : memAdj nodes links v c = true := hadj c hcR
      have hcv : memAdj nodes links c v = true := memAdj_symm hcn hvc
      rcases inv.maxInv v hv hvR hadj with h | h
      · exact Or.inl (List.mem_filter.mpr ⟨h, hcv⟩)
      · exact Or.inr (List.mem_filter.mpr ⟨h, hcv⟩)
  · rw [if_neg hcR]
    have rSub2 : ∀ a ∈ R ++ [c], a ∈ nodes := by
      intro a ha
      rcases List.mem_append.mp ha with h | h
      · exact inv.rSub a h
      · rw [List.mem_singleton.mp h]; exact hcn
    have rNodup2 : (R ++ [c]).Nodup := by
      rw [List.nodup_append]
      exact ⟨inv.rNodup, List.nodup_singleton c, by simpa using hcR⟩
    have rClique2 : ∀ a ∈ R ++ [c], ∀ b ∈ R ++ [c], a ≠ b →
        memAdj nodes links a b = true := by
      intro a ha b hb hab
      rcases List.mem_append.mp ha with haR | haC
      · rcases List.mem_append.mp hb with hbR | hbC
        · exact inv.rClique a haR b hbR hab
        · rw [List.mem_singleton.mp hbC]
          exact memAdj_symm (inv.rSub a haR) (inv.pAdj c hc a haR)
      · rw [List.mem_singleton.mp haC]
        rcases List.mem_append.mp hb with hbR | hbC
        · exact inv.pAdj c hc b hbR
        · rw [List.mem_singleton.mp haC] at hab
          exact absurd (List.mem_singleton.mp hbC).symm hab
    refine ⟨rSub2, ?_, ?_, rNodup2, inv.pNodup.filter _, rClique2, ?_, ?_⟩
    · intro a ha; exact inv.pSub a (List.mem_filter.mp ha).1
    · intro a ha; exact inv.xSub a (List.mem_filter.mp ha).1
    · intro p hp r hr
      have hpP := (List.mem_filter.mp hp).1
      have hpc : memAdj nodes links c p = true := (List.mem_filter.mp hp).2
      rcases List.mem_append.mp hr with hrR | hrC
      · exact inv.pAdj p hpP r hrR
      · rw [List.mem_singleton.mp hrC]
        exact memAdj_symm (inv.pSub p hpP) hpc
    · intro v hv hvR hadj
      have hvR0 : v ∉ R := fun h => hvR (List.mem_append.mpr (Or.inl h))
      have hadj0 : ∀ r ∈ R, memAdj nodes links v r = true := fun r hr =>
        hadj r (List.mem_append.mpr (Or.inl hr))
      have hvc : memAdj nodes links v c = true :=
        hadj c (List.mem_append.mpr (Or.inr (by simp)))
      have hcv := memAdj_symm hcn hvc
      rcases inv.maxInv v hv hvR0 hadj0 with h | h
      · exact Or.inl (List.mem_filter.mpr ⟨h, hcv⟩)
      · exact Or.inr (List.mem_filter.mpr ⟨h, hcv⟩)

theorem BKInv_shift {nodes : List String} {links : List Link}
    {R P X : List String} {c : String}
    (inv : BKInv nodes links R P X) (hc : c ∈ P) :
    BKInv nodes links R (P.erase c) (if c ∈ X then X else X ++ [c]) := by
  have hcn : c ∈ nodes := inv.pSub c hc
  have hX2 : ∀ a ∈ (if c ∈ X then X else X ++ [c]), a ∈ nodes := by
    intro a ha
    split at ha
    · exact inv.xSub a ha
    · rcases List.mem_append.mp ha with h | h
      · exact inv.xSub a h
      · rw [List.mem_singleton.mp h]; exact hcn
  have hcX2 : c ∈ (if c ∈ X then X else X ++ [c]) := by
    split
    · assumption
    · exact List.mem_append.mpr (Or.inr (by simp))
  have hXsub : ∀ a ∈ X, a ∈ (if c ∈ X then X else X ++ [c]) := by
    intro a ha
    split
    · exact ha
    · exact List.mem_append.mpr (Or.inl ha)
  refine ⟨inv.rSub, ?_, hX2, inv.rNodup, inv.pNodup.erase c, inv.rClique, ?_, ?_⟩
  · intro a ha; exact inv.pSub a (List.erase_subset c P ha)
  · intro p hp r hr; exact inv.pAdj p (List.erase_subset c P hp) r hr
  · intro v hv hvR hadj
    rcases inv.maxInv v hv hvR hadj with h | h
    · by_cases hvc : v = c
      · exact Or.inr (hvc ▸ hcX2)
      · exact Or.inl ((List.mem_erase_of_ne hvc).mpr h)
    · exact Or.inr (hXsub v h)

theorem bkGo_sound (nodes : List String) (links : List Link)
    (recur : List String → List String → List String → List (List String))
    (pivot : String)
    (hrec : ∀ R P X, BKInv nodes links R P X →
      ∀ C ∈ recur R P X, goodClique nodes links C) :
    ∀ (snap : List String) (R P X : List String),
      BKInv nodes links R P X → (∀ a ∈ snap, a ∈ P) → snap.Nodup →
      ∀ C ∈ bkGo nodes links recur pivot R snap P X, goodClique nodes links C := by
  intro snap
  induction snap with
  | nil => intro R P X _ _ _ C hC; simp [bkGo] at hC
  | cons c rest ih =>
    intro R P X inv hsnap hnd C hC
    simp only [bkGo] at hC
    split at hC
    · exact ih R P X inv (fun a ha => hsnap a (List.mem_cons_of_mem _ ha))
        (List.nodup_cons.mp hnd).2 C hC
    · rcases List.mem_append.mp hC with h | h
      · exact hrec _ _ _ (BKInv_branch inv (hsnap c (List.mem_cons_self _ _))) C h
      · refine ih R (P.erase c) _
          (BKInv_shift inv (hsnap c (List.mem_cons_self _ _)))
          ?_ (List.nodup_cons.mp hnd).2 C h
        intro a ha
        have hane : a ≠ c := fun hh => (List.nodup_cons.mp hnd).1 (hh ▸ ha)
        exact (List.mem_erase_of_ne hane).mpr (hsnap a (List.mem_cons_of_mem _ ha))

theorem bkAux_sound (nodes : List String) (links : List Link) :
    ∀ (fuel : Nat) (R P X : List String), BKInv nodes links R P X →
      ∀ C ∈ bkAux nodes links fuel R P X, goodClique nodes links C := by
  intro fuel
  induction fuel with
  | zero => intro R P X _ C hC; simp [bkAux] at hC
  | succ fuel ih =>
    intro R P X inv C hC
    simp only [bkAux] at hC
    split at hC
    · next hempty =>
      rw [Bool.and_eq_true, List.isEmpty_iff, List.isEmpty_iff] at hempty
      split at hC
      · next hlen =>
        have hCR : C = R := List.mem_singleton.mp hC
        subst hCR
        refine ⟨hlen, inv.rNodup, inv.rSub, inv.rClique, ?_⟩
        intro v hv hvC hadj
        rcases inv.maxInv v hv hvC hadj with h | h
        · rw [hempty.1] at h; simp at h
        · rw [hempty.2] at h; simp at h
      · simp at hC
    · exact bkGo_sound nodes links _ _ ih P R P X inv (fun a ha => ha)
        inv.pNodup C hC

theorem findAllCliques_sound (nodes : List String) (links : List Link) :
    ∀ C ∈ findAllCliques nodes links, goodClique nodes links C := by
  intro C hC
  unfold findAllCliques at hC
  refine bkAux_sound nodes links _ [] (jsDedup nodes) [] ?_ C hC
  refine ⟨?_, ?_, ?_, List.nodup_nil, jsDedup_nodup nodes, ?_, ?_, ?_⟩
  · intro a ha; exact absurd ha (by simp)
  · intro a ha; exact (mem_jsDedup nodes a).mp ha
  · intro a ha; exact absurd ha (by simp)
  · intro a ha; exact absurd ha (by simp)
  · intro p _ r hr; exact absurd hr (by simp)
  · intro v hv _ _; exact Or.inl ((mem_jsDedup nodes v).mpr hv)

/-- C4: every clique recorded by the clique finder is a duplicate-free
complete subgraph of the node set, with at least 3 members, maximal in the
sense that no node of the graph extends it; consequently no recorded clique
is a proper subset of another recorded clique. -/
theorem c4_theorem (nodes : List String) (links : List Link) (C D : List String)
    (hC : C ∈ findAllCliques nodes links) (hD : D ∈ findAllCliques nodes links) :
    (3 ≤ C.length ∧ C.Nodup ∧ (∀ a ∈ C, a ∈ nodes) ∧
      (∀ a ∈ C, ∀ b ∈ C, a ≠ b → memAdj nodes links a b = true) ∧
      (∀ v ∈ nodes, v ∉ C → ¬ (∀ a ∈ C, memAdj nodes links v a = true))) ∧
    (C ⊆ D → D ⊆ C) := by
  have hgC := findAllCliques_sound nodes links C hC
  have hgD := findAllCliques_sound nodes links D hD
  refine ⟨hgC, ?_⟩
  intro hsub v hvD
  by_contra hvC
  have hvn : v ∈ nodes := hgD.2.2.1 v hvD
  refine hgC.2.2.2.2 v hvn hvC ?_
  intro a ha
  have haD : a ∈ D := hsub ha
  have hav : a ≠ v := fun hh => hvC (hh ▸ ha)
  exact hgD.2.2.2.1 v hvD a haD (fun hh => hav hh.symm)

/-- C4, witness: the search on the triangle with a pendant vertex records
exactly the triangle, which the theorem certifies. -/
theorem c4_witness :
    (["a", "b", "c"] : List String) ∈
        findAllCliques ["a", "b", "c", "d"]
          [⟨"a", "b"⟩, ⟨"b", "c"⟩, ⟨"c", "a"⟩, ⟨"a", "d"⟩] ∧
    (3 ≤ (["a", "b", "c"] : List String).length ∧
      (["a", "b", "c"] : List String).Nodup ∧
      (∀ a ∈ (["a", "b", "c"] : List String), a ∈ (["a", "b", "c", "d"] : List String)) ∧
      (∀ a ∈ (["a", "b", "c"] : List String), ∀ b ∈ (["a", "b", "c"] : List String),
        a ≠ b → memAdj ["a", "b", "c", "d"]
          [⟨"a", "b"⟩, ⟨"b", "c"⟩, ⟨"c", "a"⟩, ⟨"a", "d"⟩] a b = true) ∧
      (∀ v ∈ (["a", "b", "c", "d"] : List String), v ∉ (["a", "b", "c"] : List String) →
        ¬ (∀ a ∈ (["a", "b", "c"] : List String),
          memAdj ["a", "b", "c", "d"]
            [⟨"a", "b"⟩, ⟨"b", "c"⟩, ⟨"c", "a"⟩, ⟨"a", "d"⟩] v a = true))) ∧
    ((["a", "b", "c"] : List String) ⊆ ["a", "b", "c"] → (["a", "b", "c"] : List String) ⊆ ["a", "b", "c"]) := by
  have h := c4_theorem ["a", "b", "c", "d"]
    [⟨"a", "b"⟩, ⟨"b", "c"⟩, ⟨"c", "a"⟩, ⟨"a", "d"⟩]
    ["a", "b", "c"] ["a", "b", "c"] (by decide) (by decide)
  exact ⟨by decide, h.1, h.2⟩

end SpotifyNetwork
